import Mathlib

/-!
Verification development for `MachineLearningSets.py` (class `MachineLearningSet`).

The Python source is shallowly embedded below.  Modelling conventions:

* Floating point cells are modelled exactly: `Val.num q` is a finite float with
  rational value `q`, `Val.nan` is NaN, and `Val.unset` stands for the
  unspecified contents of a freshly allocated `np.ndarray` cell (the source
  allocates with `np.ndarray((rowCount, k))`, which leaves memory garbage in
  every cell until it is written).
* A matrix is the list of its rows (`rows = records`, as in numpy's 2-d
  row-major arrays).
* The csv reader (`csv.DictReader`) is an external collaborator; a parsed file
  is a list of records, each an ordered association list from field name to the
  raw string of that cell.  `_get_csv_rowcount` returns the length of that
  list.
* Python's `float(...)` builtin is external; it is a parameter
  `pf : String → Option ℚ` (`none` models the `ValueError` raised on a string
  that does not parse).  `np.sqrt` on nonnegative arguments is likewise a
  parameter `sq : ℚ → ℚ`.
* Python exceptions are the `PyErr` type; a method that can raise returns
  `Except PyErr _`.
* `self.nan_behaviour` is assigned only on the last line of `__init__`
  (source line 64), after `_construct_matrices()` (line 61) has already run
  `_normalize()` (line 121), which reads the attribute (line 153).  The
  attribute's presence is therefore threaded explicitly as an
  `Option String`: `none` means "not yet assigned", and reading it in that
  state raises `AttributeError`, exactly as Python does.
-/

namespace MLS

/-- A cell of one of the two numeric matrices: a finite float with exact
rational value, NaN, or the unspecified contents of an uninitialized
`np.ndarray` cell. -/
inductive Val where
  | num (q : ℚ)
  | nan
  | unset
deriving DecidableEq, Repr

/-- The Python exceptions the embedded code can raise.  `valueError s` is the
`ValueError` raised by `float(s)`: its payload is only the offending string
(Python's message is "could not convert string to float: ..."), it contains no
record index and no field name. -/
inductive PyErr where
  | attributeError (attr : String)
  | nameError (n : String)
  | valueError (s : String)
  | keyError (k : String)
deriving DecidableEq, Repr

instance {ε α : Type} [DecidableEq ε] [DecidableEq α] : DecidableEq (Except ε α)
  | .ok a, .ok b =>
    if h : a = b then .isTrue (by rw [h])
    else .isFalse (fun hh => h (Except.ok.inj hh))
  | .ok _, .error _ => .isFalse (fun hh => Except.noConfusion hh)
  | .error _, .ok _ => .isFalse (fun hh => Except.noConfusion hh)
  | .error e, .error e' =>
    if h : e = e' then .isTrue (by rw [h])
    else .isFalse (fun hh => h (Except.error.inj hh))

/-- A matrix, as the list of its rows. -/
abbrev Mat := List (List Val)

/-- One csv record: ordered mapping field name → raw cell string. -/
abbrev RowMap := List (String × String)

/-- Whether an `Except` value is a success. -/
def exOk {ε α : Type} : Except ε α → Bool
  | .ok _ => true
  | .error _ => false

/-- Python `d[k]` read (first binding wins; Python dicts have unique keys). -/
def lookupA {α : Type} : List (String × α) → String → Option α
  | [], _ => none
  | (k', v) :: t, k => if k' = k then some v else lookupA t k

/-- Python `k in d`. -/
def containsKey {α : Type} (l : List (String × α)) (k : String) : Bool :=
  (lookupA l k).isSome

/-- Python `d[k] = v`: replace the first binding of `k` in place, or append a
new binding when `k` is absent. -/
def setA {α : Type} : List (String × α) → String → α → List (String × α)
  | [], k, v => [(k, v)]
  | (k', v') :: t, k, v => if k' = k then (k, v) :: t else (k', v') :: setA t k v

/-- Python `list(d.keys()).index(k)` (the declared position of a field;
the source only calls it on present keys, on an absent key Python would raise
and this model returns the length). -/
def idxOfKey {α : Type} : List (String × α) → String → ℕ
  | [], _ => 0
  | (k', _) :: t, k => if k' = k then 0 else idxOfKey t k + 1

/-- Python `lst.index(s)` for lists of raw categorical values (the source only
calls it on present values). -/
def findIdxStr : List String → String → ℕ
  | [], _ => 0
  | x :: t, s => if x = s then 0 else findIdxStr t s + 1

/-- Python `needle in hay` substring test, on the character list of `hay`. -/
def strContainsAux (needle : List Char) : List Char → Bool
  | [] => needle.isEmpty
  | c :: t => needle.isPrefixOf (c :: t) || strContainsAux needle t

/-- Python `needle in hay` substring test on strings. -/
def strContains (hay needle : String) : Bool :=
  strContainsAux needle.data hay.data

/-- Source line 54: `{f: features[f] for f in features if features[f] != 'ignore'}`. -/
def nonIgnored (features : List (String × String)) : List (String × String) :=
  features.filter (fun p => p.2 ≠ "ignore")

/-- Source line 55: non-ignored features whose kind does not contain `'target'`. -/
def inputFeatures (features : List (String × String)) : List (String × String) :=
  features.filter (fun p => decide (p.2 ≠ "ignore") && !(strContains p.2 "target"))

/-- Source line 56: non-ignored features whose kind contains `'target'`. -/
def targetFeatures (features : List (String × String)) : List (String × String) :=
  features.filter (fun p => decide (p.2 ≠ "ignore") && strContains p.2 "target")

/-- Read cell `(r, c)` of a matrix (out-of-range reads give the uninitialized
sentinel; the embedded code only reads in range). -/
def getCell (M : Mat) (r c : ℕ) : Val :=
  (M.getD r []).getD c .unset

/-- Write cell `(r, c)` of a matrix, as in `M[r, c] = v`. -/
def matSet (M : Mat) (r c : ℕ) (v : Val) : Mat :=
  M.set r ((M.getD r []).set c v)

/-- Column `c` of a matrix, as in `M[:, c]`. -/
def getCol (M : Mat) (c : ℕ) : List Val :=
  M.map (fun row => row.getD c .unset)

/-- Float subtraction: NaN absorbs, an unspecified operand stays unspecified. -/
def vSub : Val → Val → Val
  | .nan, _ => .nan
  | _, .nan => .nan
  | .unset, _ => .unset
  | _, .unset => .unset
  | .num a, .num b => .num (a - b)

/-- Float division.  NaN absorbs; division of a finite float by zero yields
`±inf` or NaN in IEEE arithmetic, which the exact-rational model cannot
represent, so it is mapped to `unset` (the spec flags the zero-std case as
deliberately unresolved; no theorem below exercises it). -/
def vDiv : Val → Val → Val
  | .nan, _ => .nan
  | _, .nan => .nan
  | .unset, _ => .unset
  | _, .unset => .unset
  | .num a, .num b => if b = 0 then .unset else .num (a / b)

/-- The z-score transform `(x - mean) / std` applied to one cell
(source lines 168 and 178). -/
def vTrans (m s x : Val) : Val :=
  vDiv (vSub x m) s

/-- The finite values of a column (`np.nanmean`/`np.nanstd` skip NaN). -/
def numsOf (col : List Val) : List ℚ :=
  col.filterMap (fun v => match v with | .num q => some q | _ => none)

/-- Whether a column still holds an uninitialized cell, in which case its
statistics are unspecified as well. -/
def hasUnset (col : List Val) : Bool :=
  col.any (fun v => match v with | .unset => true | _ => false)

/-- `np.nanmean` of a column: mean of the non-NaN entries, NaN when every
entry is NaN. -/
def nanmean (col : List Val) : Val :=
  if hasUnset col then .unset
  else
    match numsOf col with
    | [] => .nan
    | xs => .num (xs.sum / (xs.length : ℚ))

/-- The population variance `np.nanvar` of a column over its non-NaN
entries. -/
def nanvar (col : List Val) : Val :=
  if hasUnset col then .unset
  else
    match numsOf col with
    | [] => .nan
    | xs =>
      .num (((xs.map (fun x => (x - xs.sum / (xs.length : ℚ)) ^ 2)).sum) / (xs.length : ℚ))

/-- `np.nanstd` of a column: the square root of the variance, computed by the
external square-root function `sq`. -/
def nanstd (sq : ℚ → ℚ) (col : List Val) : Val :=
  match nanvar col with
  | .num q => .num (sq q)
  | v => v

/-- The mutable state threaded through `_construct_matrices`'s filling loop:
the two matrices and `self.classDict`. -/
structure TabState where
  inM : Mat
  tgM : Mat
  cd : List (String × List String)
deriving DecidableEq, Repr

/-- One iteration of the inner loop of `_construct_matrices`
(source lines 80–120): store the cell of field `f` (declared kind `k`) of
record number `r` into the state.  A field absent from the record is skipped
(line 81); an unrecognized kind matches no branch and is skipped as well. -/
def fillCell (pf : String → Option ℚ) (inF tgF : List (String × String)) (r : ℕ)
    (row : RowMap) (f k : String) (st : TabState) : Except PyErr TabState :=
  match lookupA row f with
  | none => .ok st
  | some s =>
    if k = "continuous" then
      let c := idxOfKey inF f
      if s = "" then .ok { st with inM := matSet st.inM r c .nan }
      else
        match pf s with
        | some q => .ok { st with inM := matSet st.inM r c (.num q) }
        | none => .error (.valueError s)
    else if k = "target_continuous" then
      let c := idxOfKey tgF f
      if s = "" then .ok { st with tgM := matSet st.tgM r c .nan }
      else
        match pf s with
        | some q => .ok { st with tgM := matSet st.tgM r c (.num q) }
        | none => .error (.valueError s)
    else if k = "class" then
      let cd1 := if containsKey st.cd f then st.cd else st.cd ++ [(f, [])]
      let lst := (lookupA cd1 f).getD []
      let lst1 := if s ∈ lst then lst else lst ++ [s]
      let cd2 := setA cd1 f lst1
      let c := idxOfKey inF f
      .ok { st with cd := cd2,
                    inM := matSet st.inM r c (.num (findIdxStr lst1 s : ℚ)) }
    else if k = "target_class" then
      let cd1 := if containsKey st.cd f then st.cd else st.cd ++ [(f, [])]
      let lst := (lookupA cd1 f).getD []
      let lst1 := if s ∈ lst then lst else lst ++ [s]
      let cd2 := setA cd1 f lst1
      let c := idxOfKey tgF f
      .ok { st with cd := cd2,
                    tgM := matSet st.tgM r c (.num (findIdxStr lst1 s : ℚ)) }
    else
      .ok st

/-- The loop `for feature in self.features` over one record. -/
def fillFeats (pf : String → Option ℚ) (inF tgF : List (String × String)) (r : ℕ)
    (row : RowMap) : List (String × String) → TabState → Except PyErr TabState
  | [], st => .ok st
  | (f, k) :: rest, st =>
    match fillCell pf inF tgF r row f k st with
    | .error e => .error e
    | .ok st' => fillFeats pf inF tgF r row rest st'

/-- The loop `for r, row in enumerate(csvDict)` over all records. -/
def fillRows (pf : String → Option ℚ) (feats inF tgF : List (String × String)) :
    List RowMap → ℕ → TabState → Except PyErr TabState
  | [], _, st => .ok st
  | row :: rest, r, st =>
    match fillFeats pf inF tgF r row feats st with
    | .error e => .error e
    | .ok st' => fillRows pf feats inF tgF rest (r + 1) st'

/-- Allocation and filling of the raw matrices (source lines 69–120):
`np.ndarray((rowCount, k))` leaves every cell uninitialized (`Val.unset`),
then the records are written over that sentinel. -/
def constructFill (pf : String → Option ℚ) (features : List (String × String))
    (cd : List (String × List String)) (rows : List RowMap) : Except PyErr TabState :=
  let feats := nonIgnored features
  let inF := inputFeatures features
  let tgF := targetFeatures features
  let n := rows.length
  fillRows pf feats inF tgF rows 0
    ⟨List.replicate n (List.replicate inF.length Val.unset),
     List.replicate n (List.replicate tgF.length Val.unset), cd⟩

/-- The mutable state of `_normalize`'s loop: the two matrices and
`self.norm` (field name → (mean, std)). -/
structure NormState where
  inM : Mat
  tgM : Mat
  nm : List (String × (Val × Val))
deriving DecidableEq, Repr

/-- Apply the z-score transform to column `c`, as in
`M[:, c] = (M[:, c] - mean) / std`. -/
def scaleCol (M : Mat) (c : ℕ) (m s : Val) : Mat :=
  M.map (fun row => row.set c (vTrans m s (row.getD c .unset)))

/-- One iteration of `_normalize`'s loop over `self.features`
(source lines 156–178).  For an input field of kind `'continuous'`: when
`self.norm` has no entry, insert the column's `nanmean`/`nanstd`; then scale
the column with the stored entry.  For a target field of kind
`'target_continuous'` the source computes the statistics from
`self.input_set[:, c]` — the input matrix — although `c` is the field's index
among the target features (source lines 175–176), and then scales
`self.target_set[:, c]` with them. -/
def normFeat (sq : ℚ → ℚ) (inF tgF : List (String × String)) (f : String)
    (st : NormState) : NormState :=
  if lookupA inF f = some "continuous" then
    let c := idxOfKey inF f
    let col := getCol st.inM c
    let nm1 := if containsKey st.nm f then st.nm
               else st.nm ++ [(f, (nanmean col, nanstd sq col))]
    let ms := (lookupA nm1 f).getD (.unset, .unset)
    { st with nm := nm1, inM := scaleCol st.inM c ms.1 ms.2 }
  else if lookupA tgF f = some "target_continuous" then
    let c := idxOfKey tgF f
    let col := getCol st.inM c
    let nm1 := if containsKey st.nm f then st.nm
               else st.nm ++ [(f, (nanmean col, nanstd sq col))]
    let ms := (lookupA nm1 f).getD (.unset, .unset)
    { st with nm := nm1, tgM := scaleCol st.tgM c ms.1 ms.2 }
  else st

/-- The loop `for feature in self.features` of `_normalize`. -/
def normFeats (sq : ℚ → ℚ) (inF tgF : List (String × String)) :
    List (String × String) → NormState → NormState
  | [], st => st
  | (f, _) :: rest, st => normFeats sq inF tgF rest (normFeat sq inF tgF f st)

/-- `_normalize` (source lines 151–178).  Line 153 reads
`self.nan_behaviour`: when the attribute has not been assigned yet
(`nb = none`) this raises `AttributeError`.  When it equals `'delete_row'`,
line 154 evaluates the bare name `input_set`, which is defined nowhere in the
module, raising `NameError`.  Otherwise the normalization loop runs. -/
def normalize (sq : ℚ → ℚ) (nb : Option String) (feats inF tgF : List (String × String))
    (inM tgM : Mat) (nm : List (String × (Val × Val))) : Except PyErr NormState :=
  match nb with
  | none => .error (.attributeError "nan_behaviour")
  | some b =>
    if b = "delete_row" then .error (.nameError "input_set")
    else .ok (normFeats sq inF tgF feats ⟨inM, tgM, nm⟩)

/-- Number of columns `_hot_encode` produces for `max_i` categories
(`encoded.shape[1]`): one column when `max_i ≤ 2`, else `max_i`. -/
def encWidth (k : ℕ) : ℕ :=
  if k ≤ 2 then 1 else k

/-- One row of `np.zeros((n, k))` after the scatter `v[range(n), i] = 1`:
all zeros except a 1 at position `code` (a `code` out of range would raise
`IndexError` in numpy; the theorems below keep codes in range). -/
def scatterRow (code k : ℕ) : List Val :=
  (List.replicate k (Val.num 0)).set code (Val.num 1)

/-- `_hot_encode` (source lines 188–201) on a vector of integer codes:
build the scatter matrix, and keep only its first column (as a column vector)
when `max_i ≤ 2`. -/
def hot_encode (i : List ℕ) (max_i : ℕ) : Mat :=
  let v := i.map (fun code => scatterRow code max_i)
  if max_i ≤ 2 then v.map (fun row => [row.getD 0 (Val.num 0)]) else v

/-- `int(x)` on a matrix cell (`astype(int)` truncates toward zero; on the
code columns the cells are exact nonnegative integers.  Casting NaN or
uninitialized memory to int is platform-defined in numpy; those cases are
never exercised under the theorems' hypotheses). -/
def toCode : Val → ℕ
  | .num q => q.floor.toNat
  | _ => 0

/-- `np.hstack([row[:c], enc, row[(c+1):]])`, one row at a time. -/
def spliceRow (c : ℕ) (row enc : List Val) : List Val :=
  row.take c ++ enc ++ row.drop (c + 1)

/-- The loop of `_encode_classes` over one matrix (source lines 126–139 for
the input matrix, 142–149 for the target matrix; the two loops are identical
up to the kind string `ck` and the matrix).  `full` is the feature dict the
source computes `list(... .keys()).index(feature)` against; `off` is the
accumulating `c_offset`.  `len(self.classDict[feature])` raises `KeyError`
when the dictionary has no entry for the field. -/
def encodeGo (ck : String) (cd : List (String × List String))
    (full : List (String × String)) :
    List (String × String) → ℕ → Mat → Except PyErr Mat
  | [], _, M => .ok M
  | (f, k) :: rest, off, M =>
    if k = ck then
      match lookupA cd f with
      | none => .error (.keyError f)
      | some cats =>
        let c := idxOfKey full f + off
        let codes := (getCol M c).map toCode
        let enc := hot_encode codes cats.length
        let M' := (M.zip enc).map (fun p => spliceRow c p.1 p.2)
        encodeGo ck cd full rest (off + (encWidth cats.length - 1)) M'
    else encodeGo ck cd full rest off M

/-- One matrix half of `_encode_classes`: iterate the fields with
`c_offset = 0` initially. -/
def encode_classes (ck : String) (cd : List (String × List String))
    (flds : List (String × String)) (M : Mat) : Except PyErr Mat :=
  encodeGo ck cd flds flds 0 M

/-- `_construct_matrices` (source lines 66–122): fill the raw matrices, then
`_normalize()`, then `_encode_classes()`.  `nbAttr` is the current binding of
`self.nan_behaviour` (`none` = not yet assigned).  Returns
(input matrix, target matrix, classDict, norm). -/
def construct_matrices (pf : String → Option ℚ) (sq : ℚ → ℚ) (nbAttr : Option String)
    (features : List (String × String)) (cd : List (String × List String))
    (nm : List (String × (Val × Val))) (rows : List RowMap) :
    Except PyErr (Mat × Mat × List (String × List String) × List (String × (Val × Val))) :=
  match constructFill pf features cd rows with
  | .error e => .error e
  | .ok ts =>
    match normalize sq nbAttr (nonIgnored features) (inputFeatures features)
        (targetFeatures features) ts.inM ts.tgM nm with
    | .error e => .error e
    | .ok ns =>
      match encode_classes "class" ts.cd (inputFeatures features) ns.inM with
      | .error e => .error e
      | .ok inM2 =>
        match encode_classes "target_class" ts.cd (targetFeatures features) ns.tgM with
        | .error e => .error e
        | .ok tgM2 => .ok (inM2, tgM2, ts.cd, ns.nm)

/-- The fully constructed instance (the attributes `__init__` leaves behind
on success). -/
structure MLSResult where
  inM : Mat
  tgM : Mat
  cd : List (String × List String)
  nm : List (String × (Val × Val))
  nanB : String
deriving DecidableEq, Repr

/-- `__init__` (source lines 16–64).  `_construct_matrices()` is called on
line 61 while `self.nan_behaviour` is still unassigned (it is assigned only on
line 64), so `construct_matrices` receives `none` for the attribute. -/
def initMLS (pf : String → Option ℚ) (sq : ℚ → ℚ) (rows : List RowMap)
    (features : List (String × String)) (cd : List (String × List String))
    (nm : List (String × (Val × Val))) (nan_behaviour : String) :
    Except PyErr MLSResult :=
  match construct_matrices pf sq none features cd nm rows with
  | .error e => .error e
  | .ok (a, b, c, d) => .ok ⟨a, b, c, d, nan_behaviour⟩

/-- The category list the dictionary records for a field (`classDict[f]`;
empty when the field is absent). -/
def catsOf (cd : List (String × List String)) (f : String) : List String :=
  (lookupA cd f).getD []

/-- What `_hot_encode` makes of one code: the scatter row for `k > 2`, and
only its first entry (as a one-element row) for `k ≤ 2`. -/
def hotRow (code k : ℕ) : List Val :=
  if k ≤ 2 then [(scatterRow code k).getD 0 (Val.num 0)] else scatterRow code k

/-- The block of final-matrix cells one field contributes for one record:
categorical fields (kind `ck`) contribute their hot-encoded block, every
other field keeps its single cell. -/
def blockOf (ck : String) (cd : List (String × List String))
    (p : String × String) (x : Val) : List Val :=
  if p.2 = ck then hotRow (toCode x) (catsOf cd p.1).length else [x]

/-- A whole row of the final matrix: the concatenation, in declaration order,
of each field's block.  This is the specification `_encode_classes` is proved
to satisfy: every categorical column is replaced in place by its block, with
all later columns correctly shifted. -/
def rowBlocks (ck : String) (cd : List (String × List String)) :
    List (String × String) → List Val → List Val
  | [], _ => []
  | _ :: _, [] => []
  | p :: t, x :: xs => blockOf ck cd p x ++ rowBlocks ck cd t xs

/-- Final number of columns a field occupies. -/
def fieldWidth (ck : String) (cd : List (String × List String))
    (p : String × String) : ℕ :=
  if p.2 = ck then encWidth (catsOf cd p.1).length else 1

/-- Total final column count of a list of fields. -/
def widthSum (ck : String) (cd : List (String × List String))
    (l : List (String × String)) : ℕ :=
  (l.map (fieldWidth ck cd)).sum

/-- The category dictionary `cd'` extends `cd`: every recorded category list
only grows at its end, so every code (= position) already assigned is
unchanged. -/
def cdExtends (cd cd' : List (String × List String)) : Prop :=
  ∀ f lst, lookupA cd f = some lst → ∃ ext, lookupA cd' f = some (lst ++ ext)

/-- A concrete `float(...)` parser for the closed evaluations below. -/
def pf0 : String → Option ℚ := fun s =>
  if s = "1" then some 1 else if s = "2" then some 2 else if s = "3" then some 3
  else if s = "4" then some 4 else if s = "5" then some 5
  else if s = "10" then some 10 else if s = "20" then some 20 else none

/-- A concrete square root for the closed evaluations below (exact on the
arguments that occur there). -/
def sq0 : ℚ → ℚ := fun q => if q = 1/4 then 1/2 else if q = 1 then 1 else 0

/-! Basic list facts used throughout. -/

theorem getD_set_self {α : Type} (l : List α) (c : ℕ) (v d : α) (h : c < l.length) :
    (l.set c v).getD c d = v := by
  induction l generalizing c with
  | nil => simp at h
  | cons a t ih =>
    cases c with
    | zero => rfl
    | succ c => simpa using ih c (by simpa using h)

theorem getD_set_ne {α : Type} (l : List α) (c c' : ℕ) (v d : α) (h : c ≠ c') :
    (l.set c v).getD c' d = l.getD c' d := by
  induction l generalizing c c' with
  | nil => rfl
  | cons a t ih =>
    cases c with
    | zero =>
      cases c' with
      | zero => exact absurd rfl h
      | succ c' => rfl
    | succ c =>
      cases c' with
      | zero => rfl
      | succ c' => simpa using ih c c' (by omega)

theorem getD_append_left {α : Type} (l₁ l₂ : List α) (i : ℕ) (d : α)
    (h : i < l₁.length) : (l₁ ++ l₂).getD i d = l₁.getD i d := by
  induction l₁ generalizing i with
  | nil => simp at h
  | cons a t ih =>
    cases i with
    | zero => rfl
    | succ i => simpa using ih i (by simpa using h)

theorem getD_append_right {α : Type} (l₁ l₂ : List α) (i : ℕ) (d : α) :
    (l₁ ++ l₂).getD (l₁.length + i) d = l₂.getD i d := by
  induction l₁ with
  | nil => simp
  | cons a t ih => simpa [Nat.succ_add] using ih

theorem take_append_len {α : Type} (l₁ l₂ : List α) :
    (l₁ ++ l₂).take l₁.length = l₁ := by
  induction l₁ with
  | nil => rfl
  | cons a t ih => simpa using ih

theorem drop_append_len {α : Type} (l₁ l₂ : List α) (n : ℕ) :
    (l₁ ++ l₂).drop (l₁.length + n) = l₂.drop n := by
  induction l₁ with
  | nil => simp
  | cons a t ih => simpa [Nat.succ_add] using ih

theorem getD_drop_zero {α : Type} (l : List α) (n : ℕ) (d : α) :
    (l.drop n).getD 0 d = l.getD n d := by
  induction l generalizing n with
  | nil => simp
  | cons a t ih =>
    cases n with
    | zero => rfl
    | succ n => simpa using ih n

theorem drop_eq_getD_cons {α : Type} (l : List α) (n : ℕ) (d : α) (h : n < l.length) :
    l.drop n = l.getD n d :: l.drop (n + 1) := by
  induction l generalizing n with
  | nil => simp at h
  | cons a t ih =>
    cases n with
    | zero => rfl
    | succ n => simpa using ih n (by simpa using h)

theorem getD_take {α : Type} (l : List α) (m i : ℕ) (d : α) (h : i < m) :
    (l.take m).getD i d = l.getD i d := by
  induction l generalizing m i with
  | nil => simp
  | cons a t ih =>
    cases m with
    | zero => omega
    | succ m =>
      cases i with
      | zero => rfl
      | succ i => simpa using ih m i (by omega)

theorem zip_map_self {α β : Type} (l : List α) (h : α → β) :
    l.zip (l.map h) = l.map (fun x => (x, h x)) := by
  induction l with
  | nil => rfl
  | cons a t ih => simpa using ih

theorem getD_map_lt {α β : Type} (l : List α) (f : α → β) (r : ℕ) (d : α) (d' : β)
    (h : r < l.length) : (l.map f).getD r d' = f (l.getD r d) := by
  induction l generalizing r with
  | nil => simp at h
  | cons a t ih =>
    cases r with
    | zero => rfl
    | succ r => simpa using ih r (by simpa using h)

theorem getD_replicate_lt {α : Type} (k i : ℕ) (a d : α) (h : i < k) :
    (List.replicate k a).getD i d = a := by
  induction k generalizing i with
  | zero => omega
  | succ k ih =>
    cases i with
    | zero => rfl
    | succ i =>
      rw [List.replicate_succ]
      simpa using ih i (by omega)

/-! Facts about the association-list operations modelling Python dicts. -/

theorem lookupA_mem {α : Type} {l : List (String × α)} {f : String} {v : α}
    (h : lookupA l f = some v) : (f, v) ∈ l := by
  induction l with
  | nil => simp [lookupA] at h
  | cons p t ih =>
    obtain ⟨k', v'⟩ := p
    by_cases hk : k' = f
    · subst hk
      simp [lookupA] at h
      simp [h]
    · simp [lookupA, hk] at h
      exact List.mem_cons_of_mem _ (ih h)

theorem lookupA_eq_none_of_not_mem {α : Type} {l : List (String × α)} {f : String}
    (h : f ∉ l.map Prod.fst) : lookupA l f = none := by
  induction l with
  | nil => rfl
  | cons p t ih =>
    rw [List.map_cons] at h
    simp only [List.mem_cons, not_or] at h
    obtain ⟨h1, h2⟩ := h
    have h1' : ¬ p.1 = f := fun hh => h1 hh.symm
    simpa [lookupA, h1'] using ih h2

theorem lookupA_append_some {α : Type} {l l' : List (String × α)} {f : String} {v : α}
    (h : lookupA l f = some v) : lookupA (l ++ l') f = some v := by
  induction l with
  | nil => simp [lookupA] at h
  | cons p t ih =>
    by_cases hk : p.1 = f
    · simp [lookupA, hk] at h ⊢; exact h
    · simp [lookupA, hk] at h ⊢; exact ih h

theorem lookupA_append_none {α : Type} {l : List (String × α)} (l' : List (String × α))
    {f : String} (h : lookupA l f = none) : lookupA (l ++ l') f = lookupA l' f := by
  induction l with
  | nil => rfl
  | cons p t ih =>
    by_cases hk : p.1 = f
    · simp [lookupA, hk] at h
    · simp [lookupA, hk] at h ⊢; exact ih h

theorem lookupA_setA_self {α : Type} (l : List (String × α)) (k : String) (v : α) :
    lookupA (setA l k v) k = some v := by
  induction l with
  | nil => simp [setA, lookupA]
  | cons p t ih =>
    by_cases hk : p.1 = k
    · simp [setA, hk, lookupA]
    · simp [setA, hk, lookupA, ih]

theorem lookupA_setA_ne {α : Type} (l : List (String × α)) (k f : String) (v : α)
    (h : k ≠ f) : lookupA (setA l k v) f = lookupA l f := by
  induction l with
  | nil => simp [setA, lookupA, h]
  | cons p t ih =>
    by_cases hk : p.1 = k
    · have hpf : ¬ p.1 = f := by rw [hk]; exact h
      simp [setA, hk, lookupA, h, hpf]
    · simp [setA, hk, lookupA, ih]

theorem setA_of_lookupA_eq {α : Type} {l : List (String × α)} {k : String} {v : α}
    (h : lookupA l k = some v) : setA l k v = l := by
  induction l with
  | nil => simp [lookupA] at h
  | cons p t ih =>
    by_cases hk : p.1 = k
    · simp [lookupA, hk] at h
      simp only [setA]
      rw [if_pos hk, ← h, ← hk]
    · simp [lookupA, hk] at h
      simp [setA, hk, ih h]

theorem setA_append_missing {α : Type} {l : List (String × α)} {k : String} (x y : α)
    (h : lookupA l k = none) : setA (l ++ [(k, x)]) k y = l ++ [(k, y)] := by
  induction l with
  | nil => simp [setA]
  | cons p t ih =>
    by_cases hk : p.1 = k
    · simp [lookupA, hk] at h
    · simp [lookupA, hk] at h
      simp [setA, hk, ih h]

theorem idxOfKey_lt {α : Type} {l : List (String × α)} {f : String} {v : α}
    (h : lookupA l f = some v) : idxOfKey l f < l.length := by
  induction l with
  | nil => simp [lookupA] at h
  | cons p t ih =>
    by_cases hk : p.1 = f
    · simp [idxOfKey, hk]
    · simp [lookupA, hk] at h
      simp [idxOfKey, hk]
      exact ih h

theorem idxOfKey_inj {α : Type} {l : List (String × α)} {f g : String}
    (hf : (lookupA l f).isSome) (hg : (lookupA l g).isSome) (hne : f ≠ g) :
    idxOfKey l f ≠ idxOfKey l g := by
  induction l with
  | nil => simp [lookupA] at hf
  | cons p t ih =>
    by_cases hkf : p.1 = f
    · have hkg : p.1 ≠ g := fun hh => hne (hkf.symm.trans hh)
      simp [idxOfKey, hkf, hkg, hne]
    · by_cases hkg : p.1 = g
      · have hgf : ¬ g = f := fun hh => hne hh.symm
        simp [idxOfKey, hkf, hkg, hgf]
      · simp [lookupA, hkf] at hf
        simp [lookupA, hkg] at hg
        simp [idxOfKey, hkf, hkg]
        exact ih hf hg

theorem idxOfKey_append_cons {α : Type} (l t : List (String × α)) (f : String) (k : α)
    (h : f ∉ l.map Prod.fst) : idxOfKey (l ++ (f, k) :: t) f = l.length := by
  induction l with
  | nil => simp [idxOfKey]
  | cons p tl ih =>
    rw [List.map_cons] at h
    simp only [List.mem_cons, not_or] at h
    obtain ⟨h1, h2⟩ := h
    have h1' : ¬ p.1 = f := fun hh => h1 hh.symm
    simpa [idxOfKey, h1'] using ih h2

theorem findIdxStr_append_mem (lst ext : List String) (v : String) (h : v ∈ lst) :
    findIdxStr (lst ++ ext) v = findIdxStr lst v := by
  induction lst with
  | nil => simp at h
  | cons x t ih =>
    by_cases hx : x = v
    · simp [findIdxStr, hx]
    · simp [findIdxStr, hx]
      refine ih ?_
      rcases List.mem_cons.mp h with h1 | h1
      · exact absurd h1.symm hx
      · exact h1

theorem lookupA_filter {α : Type} (l : List (String × α)) (P : String × α → Bool)
    (f : String) (hnd : (l.map Prod.fst).Nodup) :
    lookupA (l.filter P) f =
      (lookupA l f).bind (fun v => if P (f, v) then some v else none) := by
  induction l with
  | nil => rfl
  | cons p t ih =>
    rw [List.map_cons, List.nodup_cons] at hnd
    obtain ⟨hp, ht⟩ := hnd
    by_cases hk : p.1 = f
    · have htn : f ∉ t.map Prod.fst := by rw [← hk]; exact hp
      have hfil : lookupA (t.filter P) f = none := by
        apply lookupA_eq_none_of_not_mem
        intro hm
        rcases List.mem_map.mp hm with ⟨q, hq, hq1⟩
        exact htn (List.mem_map.mpr ⟨q, List.mem_of_mem_filter hq, hq1⟩)
      have hfp : ((f, p.2) : String × α) = p := by rw [← hk]
      by_cases hP : P p
      · simp [List.filter_cons, hP, lookupA, hk, hfp]
      · simp [List.filter_cons, hP, lookupA, hk, hfp, hfil]
    · by_cases hP : P p
      · simp [List.filter_cons, hP, lookupA, hk, ih ht]
      · simp [List.filter_cons, hP, lookupA, hk, ih ht]

theorem map_congr_mem {α β : Type} (l : List α) (f g : α → β)
    (h : ∀ a ∈ l, f a = g a) : l.map f = l.map g := by
  induction l with
  | nil => rfl
  | cons a t ih => simp [h a (by simp), ih (fun b hb => h b (by simp [hb]))]

/-! Facts about columns of the embedded matrices. -/

theorem getCol_scaleCol_ne (M : Mat) (c c' : ℕ) (m s : Val) (h : c ≠ c') :
    getCol (scaleCol M c m s) c' = getCol M c' := by
  simp only [getCol, scaleCol, List.map_map]
  apply map_congr_mem
  intro row _
  simp only [Function.comp_apply]
  exact getD_set_ne _ _ _ _ _ h

theorem getCol_scaleCol_self (M : Mat) (c : ℕ) (m s : Val)
    (h : ∀ row ∈ M, c < row.length) :
    getCol (scaleCol M c m s) c = (getCol M c).map (vTrans m s) := by
  simp only [getCol, scaleCol, List.map_map]
  apply map_congr_mem
  intro row hr
  simp only [Function.comp_apply]
  exact getD_set_self _ _ _ _ (h row hr)

theorem scaleCol_length_map (M : Mat) (c : ℕ) (m s : Val) :
    (scaleCol M c m s).map List.length = M.map List.length := by
  simp only [scaleCol, List.map_map]
  apply map_congr_mem
  intro row _
  simp

theorem length_map_all {α : Type} (M M' : List (List α)) (n : ℕ)
    (hmap : M'.map List.length = M.map List.length) (h : ∀ row ∈ M, row.length = n) :
    ∀ row ∈ M', row.length = n := by
  intro row hr
  have hmem : row.length ∈ M'.map List.length := List.mem_map_of_mem _ hr
  rw [hmap] at hmem
  rcases List.mem_map.mp hmem with ⟨r0, hr0, hl⟩
  rw [← hl, h r0 hr0]

/-! Behaviour of one `_normalize` loop iteration. -/

theorem normFeat_nm_lookup (sq : ℚ → ℚ) (inF tgF : List (String × String))
    (g : String) (st : NormState) (f : String) (v : Val × Val)
    (h : lookupA st.nm f = some v) :
    lookupA (normFeat sq inF tgF g st).nm f = some v := by
  unfold normFeat
  by_cases h1 : lookupA inF g = some "continuous"
  · by_cases h2 : containsKey st.nm g
    · simp [h1, h2, h]
    · simp [h1, h2, lookupA_append_some h]
  · by_cases h2 : lookupA tgF g = some "target_continuous"
    · by_cases h3 : containsKey st.nm g
      · simp [h1, h2, h3, h]
      · simp [h1, h2, h3, lookupA_append_some h]
    · simp [h1, h2, h]

theorem normFeat_inM_col (sq : ℚ → ℚ) (inF tgF : List (String × String))
    (g : String) (st : NormState) (f : String)
    (hf : (lookupA inF f).isSome) (hne : g ≠ f) :
    getCol (normFeat sq inF tgF g st).inM (idxOfKey inF f) =
      getCol st.inM (idxOfKey inF f) := by
  unfold normFeat
  by_cases h1 : lookupA inF g = some "continuous"
  · have hg : (lookupA inF g).isSome := by rw [h1]; rfl
    have hidx : idxOfKey inF g ≠ idxOfKey inF f := idxOfKey_inj hg hf hne
    simp [h1]
    exact getCol_scaleCol_ne _ _ _ _ _ hidx
  · by_cases h2 : lookupA tgF g = some "target_continuous" <;> simp [h1, h2]

theorem normFeat_tgM_col (sq : ℚ → ℚ) (inF tgF : List (String × String))
    (g : String) (st : NormState) (f : String)
    (hf : (lookupA tgF f).isSome) (hne : g ≠ f) :
    getCol (normFeat sq inF tgF g st).tgM (idxOfKey tgF f) =
      getCol st.tgM (idxOfKey tgF f) := by
  unfold normFeat
  by_cases h1 : lookupA inF g = some "continuous"
  · simp [h1]
  · by_cases h2 : lookupA tgF g = some "target_continuous"
    · have hg : (lookupA tgF g).isSome := by rw [h2]; rfl
      have hidx : idxOfKey tgF g ≠ idxOfKey tgF f := idxOfKey_inj hg hf hne
      simp [h1, h2]
      exact getCol_scaleCol_ne _ _ _ _ _ hidx
    · simp [h1, h2]

theorem normFeat_lengths (sq : ℚ → ℚ) (inF tgF : List (String × String))
    (g : String) (st : NormState) :
    (normFeat sq inF tgF g st).inM.map List.length = st.inM.map List.length ∧
    (normFeat sq inF tgF g st).tgM.map List.length = st.tgM.map List.length := by
  unfold normFeat
  by_cases h1 : lookupA inF g = some "continuous"
  · simp [h1, scaleCol_length_map]
  · by_cases h2 : lookupA tgF g = some "target_continuous" <;>
      simp [h1, h2, scaleCol_length_map]

theorem normFeat_self_cont (sq : ℚ → ℚ) (inF tgF : List (String × String))
    (f : String) (st : NormState) (m s : Val)
    (hf : lookupA inF f = some "continuous") (hnm : lookupA st.nm f = some (m, s)) :
    normFeat sq inF tgF f st =
      { st with inM := scaleCol st.inM (idxOfKey inF f) m s } := by
  obtain ⟨iM, tM, nm⟩ := st
  have hck : containsKey nm f = true := by simp [containsKey, hnm]
  simp only [normFeat, hf, if_true, hck, eq_self_iff_true] at *
  simp [hnm]

theorem normFeat_self_target (sq : ℚ → ℚ) (inF tgF : List (String × String))
    (f : String) (st : NormState) (m s : Val)
    (hfIn : lookupA inF f = none)
    (hf : lookupA tgF f = some "target_continuous")
    (hnm : lookupA st.nm f = some (m, s)) :
    normFeat sq inF tgF f st =
      { st with tgM := scaleCol st.tgM (idxOfKey tgF f) m s } := by
  obtain ⟨iM, tM, nm⟩ := st
  have h1 : ¬ lookupA inF f = some "continuous" := by simp [hfIn]
  have hck : containsKey nm f = true := by simp [containsKey, hnm]
  simp only [normFeat, h1, hf, hck, if_true, if_false, eq_self_iff_true] at *
  simp [hnm]

/-! Behaviour of the whole `_normalize` loop. -/

theorem normFeats_append (sq : ℚ → ℚ) (inF tgF : List (String × String))
    (l₁ l₂ : List (String × String)) (st : NormState) :
    normFeats sq inF tgF (l₁ ++ l₂) st =
      normFeats sq inF tgF l₂ (normFeats sq inF tgF l₁ st) := by
  induction l₁ generalizing st with
  | nil => rfl
  | cons p t ih =>
    obtain ⟨f, k⟩ := p
    simp [normFeats, ih]

theorem normFeats_nm_lookup (sq : ℚ → ℚ) (inF tgF : List (String × String))
    (l : List (String × String)) (st : NormState) (f : String) (v : Val × Val)
    (h : lookupA st.nm f = some v) :
    lookupA (normFeats sq inF tgF l st).nm f = some v := by
  induction l generalizing st with
  | nil => exact h
  | cons p t ih =>
    obtain ⟨g, k⟩ := p
    exact ih _ (normFeat_nm_lookup _ _ _ _ _ _ _ h)

theorem normFeats_inM_col (sq : ℚ → ℚ) (inF tgF : List (String × String))
    (l : List (String × String)) (st : NormState) (f : String)
    (hf : (lookupA inF f).isSome) (h : ∀ p ∈ l, p.1 ≠ f) :
    getCol (normFeats sq inF tgF l st).inM (idxOfKey inF f) =
      getCol st.inM (idxOfKey inF f) := by
  induction l generalizing st with
  | nil => rfl
  | cons p t ih =>
    obtain ⟨g, k⟩ := p
    have hg : g ≠ f := h (g, k) (by simp)
    rw [normFeats, ih _ (fun q hq => h q (by simp [hq]))]
    exact normFeat_inM_col _ _ _ _ _ _ hf hg

theorem normFeats_tgM_col (sq : ℚ → ℚ) (inF tgF : List (String × String))
    (l : List (String × String)) (st : NormState) (f : String)
    (hf : (lookupA tgF f).isSome) (h : ∀ p ∈ l, p.1 ≠ f) :
    getCol (normFeats sq inF tgF l st).tgM (idxOfKey tgF f) =
      getCol st.tgM (idxOfKey tgF f) := by
  induction l generalizing st with
  | nil => rfl
  | cons p t ih =>
    obtain ⟨g, k⟩ := p
    have hg : g ≠ f := h (g, k) (by simp)
    rw [normFeats, ih _ (fun q hq => h q (by simp [hq]))]
    exact normFeat_tgM_col _ _ _ _ _ _ hf hg

theorem normFeats_lengths (sq : ℚ → ℚ) (inF tgF : List (String × String))
    (l : List (String × String)) (st : NormState) :
    (normFeats sq inF tgF l st).inM.map List.length = st.inM.map List.length ∧
    (normFeats sq inF tgF l st).tgM.map List.length = st.tgM.map List.length := by
  induction l generalizing st with
  | nil => exact ⟨rfl, rfl⟩
  | cons p t ih =>
    obtain ⟨g, k⟩ := p
    obtain ⟨hi, ht⟩ := ih (normFeat sq inF tgF g st)
    obtain ⟨hi', ht'⟩ := normFeat_lengths sq inF tgF g st
    exact ⟨by rw [normFeats, hi, hi'], by rw [normFeats, ht, ht']⟩

theorem lookupA_filter_some {α : Type} {l : List (String × α)} {P : String × α → Bool}
    {f : String} {v : α} (hnd : (l.map Prod.fst).Nodup)
    (h : lookupA (l.filter P) f = some v) : lookupA l f = some v := by
  rw [lookupA_filter l P f hnd] at h
  cases hLF : lookupA l f with
  | none => rw [hLF] at h; simp at h
  | some w =>
    rw [hLF] at h
    by_cases hP : P (f, w)
    · simp [hP] at h
      rw [h]
    · simp [hP] at h

/-- C6: a `NormalizationStats` entry that is already present when construction
is called is left unchanged by the normalization pass, and its mean and
standard deviation are the ones used verbatim (no recomputation) to scale that
field's column — the input-matrix column for a `'continuous'` field, the
target-matrix column for a `'target_continuous'` field — so a second dataset
normalized with the first dataset's statistics is scaled identically to the
first. -/
theorem c6_supplied_stats_verbatim (sq : ℚ → ℚ) (features : List (String × String))
    (inM tgM : Mat) (nm0 : List (String × (Val × Val))) (f : String) (m s : Val)
    (hnd : (features.map Prod.fst).Nodup)
    (hn : lookupA nm0 f = some (m, s))
    (hrIn : ∀ row ∈ inM, row.length = (inputFeatures features).length)
    (hrTg : ∀ row ∈ tgM, row.length = (targetFeatures features).length) :
    ∃ ns : NormState,
      normalize sq (some "ignore") (nonIgnored features) (inputFeatures features)
        (targetFeatures features) inM tgM nm0 = .ok ns ∧
      lookupA ns.nm f = some (m, s) ∧
      (lookupA (inputFeatures features) f = some "continuous" →
        getCol ns.inM (idxOfKey (inputFeatures features) f) =
          (getCol inM (idxOfKey (inputFeatures features) f)).map (vTrans m s)) ∧
      (lookupA (targetFeatures features) f = some "target_continuous" →
        getCol ns.tgM (idxOfKey (targetFeatures features) f) =
          (getCol tgM (idxOfKey (targetFeatures features) f)).map (vTrans m s)) := by
  have hndFeats : ((nonIgnored features).map Prod.fst).Nodup := by
    refine List.Nodup.sublist ?_ hnd
    exact List.Sublist.map _ (List.filter_sublist _)
  refine ⟨normFeats sq (inputFeatures features) (targetFeatures features)
      (nonIgnored features) ⟨inM, tgM, nm0⟩, by simp [normalize], ?_, ?_, ?_⟩
  · exact normFeats_nm_lookup _ _ _ _ _ _ _ hn
  · intro hf
    have hfs : (lookupA (inputFeatures features) f).isSome := by rw [hf]; rfl
    have hmemFeats : (f, "continuous") ∈ nonIgnored features := by
      refine List.mem_filter.mpr ⟨List.mem_of_mem_filter (lookupA_mem hf), ?_⟩
      show decide (("continuous" : String) ≠ "ignore") = true
      decide
    obtain ⟨l₁, l₂, hsplit⟩ := List.append_of_mem hmemFeats
    rw [hsplit] at hndFeats
    rw [List.map_append, List.map_cons, List.nodup_append] at hndFeats
    obtain ⟨hn1, hn2, hdisj⟩ := hndFeats
    rw [List.nodup_cons] at hn2
    obtain ⟨hf2, _⟩ := hn2
    have hf1 : f ∉ l₁.map Prod.fst := fun hm => (hdisj hm (by simp) : False)
    have h1 : ∀ p ∈ l₁, p.1 ≠ f := by
      intro p hp hh
      apply hf1
      have hm : p.1 ∈ l₁.map Prod.fst := List.mem_map_of_mem Prod.fst hp
      rwa [hh] at hm
    have h2 : ∀ p ∈ l₂, p.1 ≠ f := by
      intro p hp hh
      apply hf2
      have hm : p.1 ∈ l₂.map Prod.fst := List.mem_map_of_mem Prod.fst hp
      rwa [hh] at hm
    rw [hsplit, normFeats_append]
    have hnm1 : lookupA (normFeats sq (inputFeatures features) (targetFeatures features)
        l₁ ⟨inM, tgM, nm0⟩).nm f = some (m, s) :=
      normFeats_nm_lookup _ _ _ _ _ _ _ hn
    have hcol1 : getCol (normFeats sq (inputFeatures features) (targetFeatures features)
        l₁ ⟨inM, tgM, nm0⟩).inM (idxOfKey (inputFeatures features) f) =
        getCol inM (idxOfKey (inputFeatures features) f) :=
      normFeats_inM_col _ _ _ _ _ _ hfs h1
    simp only [normFeats]
    rw [normFeat_self_cont sq _ _ f _ m s hf hnm1]
    rw [normFeats_inM_col _ _ _ _ _ _ hfs h2]
    have hlen : ∀ row ∈ (normFeats sq (inputFeatures features) (targetFeatures features)
        l₁ ⟨inM, tgM, nm0⟩).inM, idxOfKey (inputFeatures features) f < row.length := by
      have hidx : idxOfKey (inputFeatures features) f < (inputFeatures features).length :=
        idxOfKey_lt hf
      have hall := length_map_all inM _ (inputFeatures features).length
        (normFeats_lengths sq (inputFeatures features) (targetFeatures features)
          l₁ ⟨inM, tgM, nm0⟩).1 hrIn
      intro row hr
      rw [hall row hr]
      exact hidx
    simp only []
    rw [getCol_scaleCol_self _ _ _ _ hlen, hcol1]
  · intro hT
    have hTs : (lookupA (targetFeatures features) f).isSome := by rw [hT]; rfl
    have hfeat : lookupA features f = some "target_continuous" :=
      lookupA_filter_some hnd hT
    have hfIn : lookupA (inputFeatures features) f = none := by
      have hinFd : inputFeatures features = features.filter
          (fun p => decide (p.2 ≠ "ignore") && !(strContains p.2 "target")) := rfl
      rw [hinFd, lookupA_filter _ _ _ hnd, hfeat]
      show (if (decide (("target_continuous" : String) ≠ "ignore") &&
          !strContains "target_continuous" "target") = true
        then some "target_continuous" else none) = none
      decide
    have hmemFeats : (f, "target_continuous") ∈ nonIgnored features := by
      refine List.mem_filter.mpr ⟨List.mem_of_mem_filter (lookupA_mem hT), ?_⟩
      show decide (("target_continuous" : String) ≠ "ignore") = true
      decide
    obtain ⟨l₁, l₂, hsplit⟩ := List.append_of_mem hmemFeats
    rw [hsplit] at hndFeats
    rw [List.map_append, List.map_cons, List.nodup_append] at hndFeats
    obtain ⟨hn1, hn2, hdisj⟩ := hndFeats
    rw [List.nodup_cons] at hn2
    obtain ⟨hf2, _⟩ := hn2
    have hf1 : f ∉ l₁.map Prod.fst := fun hm => (hdisj hm (by simp) : False)
    have h1 : ∀ p ∈ l₁, p.1 ≠ f := by
      intro p hp hh
      apply hf1
      have hm : p.1 ∈ l₁.map Prod.fst := List.mem_map_of_mem Prod.fst hp
      rwa [hh] at hm
    have h2 : ∀ p ∈ l₂, p.1 ≠ f := by
      intro p hp hh
      apply hf2
      have hm : p.1 ∈ l₂.map Prod.fst := List.mem_map_of_mem Prod.fst hp
      rwa [hh] at hm
    rw [hsplit, normFeats_append]
    have hnm1 : lookupA (normFeats sq (inputFeatures features) (targetFeatures features)
        l₁ ⟨inM, tgM, nm0⟩).nm f = some (m, s) :=
      normFeats_nm_lookup _ _ _ _ _ _ _ hn
    have hcol1 : getCol (normFeats sq (inputFeatures features) (targetFeatures features)
        l₁ ⟨inM, tgM, nm0⟩).tgM (idxOfKey (targetFeatures features) f) =
        getCol tgM (idxOfKey (targetFeatures features) f) :=
      normFeats_tgM_col _ _ _ _ _ _ hTs h1
    simp only [normFeats]
    rw [normFeat_self_target sq _ _ f _ m s hfIn hT hnm1]
    rw [normFeats_tgM_col _ _ _ _ _ _ hTs h2]
    have hlen : ∀ row ∈ (normFeats sq (inputFeatures features) (targetFeatures features)
        l₁ ⟨inM, tgM, nm0⟩).tgM, idxOfKey (targetFeatures features) f < row.length := by
      have hidx : idxOfKey (targetFeatures features) f < (targetFeatures features).length :=
        idxOfKey_lt hT
      have hall := length_map_all tgM _ (targetFeatures features).length
        (normFeats_lengths sq (inputFeatures features) (targetFeatures features)
          l₁ ⟨inM, tgM, nm0⟩).2 hrTg
      intro row hr
      rw [hall row hr]
      exact hidx
    rw [getCol_scaleCol_self _ _ _ _ hlen, hcol1]

/-- C1: with any csv source, feature schema, dictionary, statistics and
NaN-policy argument, `__init__` never returns matrices — it always fails —
and whenever the matrix-filling pass itself succeeds the failure is exactly
the `AttributeError` on `nan_behaviour`: `__init__` calls
`_construct_matrices` (which calls `_normalize`, which reads
`self.nan_behaviour`) before the line that assigns `self.nan_behaviour`, so
the attribute read always precedes its assignment. -/
theorem c1_construction_always_fails (pf : String → Option ℚ) (sq : ℚ → ℚ)
    (rows : List RowMap) (features : List (String × String))
    (cd : List (String × List String)) (nm : List (String × (Val × Val)))
    (nb : String) :
    exOk (initMLS pf sq rows features cd nm nb) = false ∧
    (exOk (constructFill pf features cd rows) = true →
      initMLS pf sq rows features cd nm nb = .error (.attributeError "nan_behaviour")) := by
  constructor
  · unfold initMLS construct_matrices
    cases h : constructFill pf features cd rows with
    | error e => simp [exOk]
    | ok ts => simp [normalize, exOk]
  · intro hOk
    unfold initMLS construct_matrices
    cases h : constructFill pf features cd rows with
    | error e => rw [h] at hOk; simp [exOk] at hOk
    | ok ts => simp [normalize]

/-- C5 amended: the NaN-policy argument is never validated and no
`UnsupportedError` is raised anywhere.  `_normalize`'s only test of the policy
is equality with `'delete_row'`, so any other value (supported or not) behaves
exactly like `'ignore'`; and the outcome of `__init__` does not depend on the
policy argument at all, because construction aborts with the `AttributeError`
of C1 before the attribute is ever assigned. -/
theorem c5_amended_no_policy_validation :
    (∀ (sq : ℚ → ℚ) (nb : String) (feats inF tgF : List (String × String))
        (inM tgM : Mat) (nm : List (String × (Val × Val))), nb ≠ "delete_row" →
        normalize sq (some nb) feats inF tgF inM tgM nm =
          normalize sq (some "ignore") feats inF tgF inM tgM nm) ∧
    (∀ (pf : String → Option ℚ) (sq : ℚ → ℚ) (rows : List RowMap)
        (features : List (String × String)) (cd : List (String × List String))
        (nm : List (String × (Val × Val))) (nb nb' : String),
        initMLS pf sq rows features cd nm nb = initMLS pf sq rows features cd nm nb') := by
  constructor
  · intro sq nb feats inF tgF inM tgM nm hnb
    have hig : ("ignore" : String) ≠ "delete_row" := by decide
    simp [normalize, hnb, hig]
  · intro pf sq rows features cd nm nb nb'
    unfold initMLS construct_matrices
    cases h : constructFill pf features cd rows with
    | error e => rfl
    | ok ts => rfl

/-- C4 amended: the construction operation performs no validation of kind
strings and no `SchemaError` exists in the code (`FEATURETYPES` is declared
but never used).  A kind outside the five recognized values is kept by the
schema classifier (it is not `'ignore'`, so it survives the filter on line
54), and during tabulation it matches none of the four kind branches, so the
record loop stores nothing for it and raises nothing — its cells keep the
allocation sentinel. -/
theorem c4_amended_no_kind_validation (pf : String → Option ℚ)
    (inF tgF : List (String × String)) (r : ℕ) (row : RowMap) (f k : String)
    (st : TabState)
    (hk : k ∉ (["continuous", "class", "target_continuous", "target_class",
                "ignore"] : List String)) :
    fillCell pf inF tgF r row f k st = .ok st ∧ nonIgnored [(f, k)] = [(f, k)] := by
  simp only [List.mem_cons, not_or] at hk
  obtain ⟨h1, h2, h3, h4, h5, -⟩ := hk
  constructor
  · unfold fillCell
    cases hrow : lookupA row f with
    | none => rfl
    | some s => simp [h1, h2, h3, h4]
  · simp [nonIgnored, h5]

/-- C10 amended: during tabulation of a `'continuous'` or
`'target_continuous'` field, an empty string is stored as NaN and a parseable
numeric string is stored as its float value; a non-empty non-numeric string
aborts construction with the `ValueError` raised by `float(...)`, whose
payload is only the offending string — it does not carry the record index or
the field name.  The last conjunct shows the error aborts the record loop
immediately. -/
theorem c10_amended_parse (pf : String → Option ℚ) (inF tgF : List (String × String))
    (r : ℕ) (row : RowMap) (f s : String) (st : TabState)
    (hrow : lookupA row f = some s) :
    (s = "" →
      fillCell pf inF tgF r row f "continuous" st =
        .ok { st with inM := matSet st.inM r (idxOfKey inF f) .nan } ∧
      fillCell pf inF tgF r row f "target_continuous" st =
        .ok { st with tgM := matSet st.tgM r (idxOfKey tgF f) .nan }) ∧
    (∀ q : ℚ, s ≠ "" → pf s = some q →
      fillCell pf inF tgF r row f "continuous" st =
        .ok { st with inM := matSet st.inM r (idxOfKey inF f) (.num q) } ∧
      fillCell pf inF tgF r row f "target_continuous" st =
        .ok { st with tgM := matSet st.tgM r (idxOfKey tgF f) (.num q) }) ∧
    (s ≠ "" → pf s = none →
      fillCell pf inF tgF r row f "continuous" st = .error (.valueError s) ∧
      fillCell pf inF tgF r row f "target_continuous" st = .error (.valueError s)) ∧
    (∀ (e : PyErr) (k : String) (restFeats : List (String × String)),
      fillCell pf inF tgF r row f k st = .error e →
      fillFeats pf inF tgF r row ((f, k) :: restFeats) st = .error e) := by
  refine ⟨?_, ?_, ?_, ?_⟩
  · intro hs
    constructor <;> simp [fillCell, hrow, hs]
  · intro q hs hq
    constructor <;> simp [fillCell, hrow, hs, hq]
  · intro hs hq
    constructor <;> simp [fillCell, hrow, hs, hq]
  · intro e k restFeats hc
    rw [fillFeats, hc]

/-! The category dictionary only grows, and existing codes never move. -/

theorem cdExtends_refl (cd : List (String × List String)) : cdExtends cd cd :=
  fun _ lst h => ⟨[], by simpa using h⟩

theorem cdExtends_trans {a b c : List (String × List String)}
    (h1 : cdExtends a b) (h2 : cdExtends b c) : cdExtends a c := by
  intro f lst h
  obtain ⟨e1, hb⟩ := h1 f lst h
  obtain ⟨e2, hc⟩ := h2 _ _ hb
  exact ⟨e1 ++ e2, by rw [hc, List.append_assoc]⟩

theorem cdExtends_class (cd : List (String × List String)) (f s : String) :
    cdExtends cd
      (setA (if containsKey cd f then cd else cd ++ [(f, [])]) f
        (if s ∈ (lookupA (if containsKey cd f then cd else cd ++ [(f, [])]) f).getD []
         then (lookupA (if containsKey cd f then cd else cd ++ [(f, [])]) f).getD []
         else (lookupA (if containsKey cd f then cd else cd ++ [(f, [])]) f).getD [] ++ [s])) := by
  intro f' lstA hA
  by_cases hff : f = f'
  · subst hff
    have hck : containsKey cd f = true := by simp [containsKey, hA]
    rw [if_pos hck]
    have hget : (lookupA cd f).getD [] = lstA := by rw [hA]; rfl
    rw [hget]
    by_cases hmem : s ∈ lstA
    · rw [if_pos hmem, lookupA_setA_self]
      exact ⟨[], by simp⟩
    · rw [if_neg hmem, lookupA_setA_self]
      exact ⟨[s], rfl⟩
  · have hcd1 : lookupA (if containsKey cd f then cd else cd ++ [(f, [])]) f' = some lstA := by
      by_cases hck : containsKey cd f
      · rw [if_pos hck]; exact hA
      · rw [if_neg hck]; exact lookupA_append_some hA
    rw [lookupA_setA_ne _ _ _ _ hff, hcd1]
    exact ⟨[], by simp⟩

theorem fillCell_cdExtends (pf : String → Option ℚ) (inF tgF : List (String × String))
    (r : ℕ) (row : RowMap) (f k : String) (st st' : TabState)
    (h : fillCell pf inF tgF r row f k st = .ok st') : cdExtends st.cd st'.cd := by
  unfold fillCell at h
  split at h
  next => injection h with h; subst h; exact cdExtends_refl _
  next s hs =>
    split at h
    next h1 =>
      split at h
      next hs0 => injection h with h; subst h; exact cdExtends_refl _
      next hs0 =>
        split at h
        next q hq => injection h with h; subst h; exact cdExtends_refl _
        next hq => exact Except.noConfusion h
    next h1 =>
      split at h
      next h2 =>
        split at h
        next hs0 => injection h with h; subst h; exact cdExtends_refl _
        next hs0 =>
          split at h
          next q hq => injection h with h; subst h; exact cdExtends_refl _
          next hq => exact Except.noConfusion h
      next h2 =>
        split at h
        next h3 =>
          injection h with h
          subst h
          exact cdExtends_class st.cd f s
        next h3 =>
          split at h
          next h4 =>
            injection h with h
            subst h
            exact cdExtends_class st.cd f s
          next h4 =>
            injection h with h
            subst h
            exact cdExtends_refl _

theorem fillFeats_cdExtends (pf : String → Option ℚ) (inF tgF : List (String × String))
    (r : ℕ) (row : RowMap) (l : List (String × String)) (st st' : TabState)
    (h : fillFeats pf inF tgF r row l st = .ok st') : cdExtends st.cd st'.cd := by
  induction l generalizing st with
  | nil =>
    rw [fillFeats] at h
    injection h with h
    subst h
    exact cdExtends_refl _
  | cons p t ih =>
    obtain ⟨f, k⟩ := p
    rw [fillFeats] at h
    cases hc : fillCell pf inF tgF r row f k st with
    | error e => rw [hc] at h; exact Except.noConfusion h
    | ok st1 =>
      rw [hc] at h
      exact cdExtends_trans (fillCell_cdExtends _ _ _ _ _ _ _ _ _ hc) (ih _ h)

theorem fillRows_cdExtends (pf : String → Option ℚ)
    (feats inF tgF : List (String × String)) (rows : List RowMap) (r : ℕ)
    (st st' : TabState)
    (h : fillRows pf feats inF tgF rows r st = .ok st') : cdExtends st.cd st'.cd := by
  induction rows generalizing r st with
  | nil =>
    rw [fillRows] at h
    injection h with h
    subst h
    exact cdExtends_refl _
  | cons row rest ih =>
    rw [fillRows] at h
    cases hc : fillFeats pf inF tgF r row feats st with
    | error e => rw [hc] at h; exact Except.noConfusion h
    | ok st1 =>
      rw [hc] at h
      exact cdExtends_trans (fillFeats_cdExtends _ _ _ _ _ _ _ _ hc) (ih _ _ h)

/-- C7: the category dictionary is append-only and codes are stable.
First conjunct: for a categorical field not yet in the dictionary, the first
raw value encountered creates the entry and is assigned code 0.  Second
conjunct: a raw value already recorded leaves the dictionary unchanged and is
encoded with the same code (its first-assigned position).  Third conjunct: a
whole construction run over any dataset only extends each recorded category
list at its end.  Fourth conjunct: appending new values never changes the
code of a value already in the list. -/
theorem c7_dictionary_stable :
    (∀ (pf : String → Option ℚ) (inF tgF : List (String × String)) (r : ℕ)
        (row : RowMap) (f s : String) (st : TabState),
        lookupA row f = some s → lookupA st.cd f = none →
        fillCell pf inF tgF r row f "class" st =
          .ok { st with cd := st.cd ++ [(f, [s])],
                        inM := matSet st.inM r (idxOfKey inF f) (.num 0) }) ∧
    (∀ (pf : String → Option ℚ) (inF tgF : List (String × String)) (r : ℕ)
        (row : RowMap) (f s : String) (st : TabState) (lst : List String),
        lookupA row f = some s → lookupA st.cd f = some lst → s ∈ lst →
        fillCell pf inF tgF r row f "class" st =
          .ok { st with inM := matSet st.inM r (idxOfKey inF f)
                          (.num (findIdxStr lst s : ℚ)) }) ∧
    (∀ (pf : String → Option ℚ) (features : List (String × String))
        (cd : List (String × List String)) (rows : List RowMap) (ts : TabState),
        constructFill pf features cd rows = .ok ts → cdExtends cd ts.cd) ∧
    (∀ (lst ext : List String) (v : String), v ∈ lst →
        findIdxStr (lst ++ ext) v = findIdxStr lst v) := by
  refine ⟨?_, ?_, ?_, findIdxStr_append_mem⟩
  · intro pf inF tgF r row f s st hrow hcd
    have hck : containsKey st.cd f = false := by simp [containsKey, hcd]
    have hl1 : lookupA (st.cd ++ [(f, [])]) f = some [] := by
      rw [lookupA_append_none _ hcd]
      simp [lookupA]
    have hset : setA (st.cd ++ [(f, ([] : List String))]) f [s] = st.cd ++ [(f, [s])] :=
      setA_append_missing _ _ hcd
    simp [fillCell, hrow, hck, hl1, hset, findIdxStr]
  · intro pf inF tgF r row f s st lst hrow hcd hmem
    have hck : containsKey st.cd f = true := by simp [containsKey, hcd]
    have hset : setA st.cd f lst = st.cd := setA_of_lookupA_eq hcd
    simp [fillCell, hrow, hck, hcd, hmem, hset]
  · intro pf features cd rows ts h
    unfold constructFill at h
    exact fillRows_cdExtends _ _ _ _ _ _ _ _ h

/-! One-hot expansion: widths and per-row shape. -/

theorem encWidth_pos (k : ℕ) : 1 ≤ encWidth k := by
  unfold encWidth
  split <;> omega

theorem fieldWidth_pos (ck : String) (cd : List (String × List String))
    (p : String × String) : 1 ≤ fieldWidth ck cd p := by
  unfold fieldWidth
  split
  · exact encWidth_pos _
  · omega

theorem widthSum_nil (ck : String) (cd : List (String × List String)) :
    widthSum ck cd [] = 0 := rfl

theorem widthSum_cons (ck : String) (cd : List (String × List String))
    (p : String × String) (t : List (String × String)) :
    widthSum ck cd (p :: t) = fieldWidth ck cd p + widthSum ck cd t := by
  simp [widthSum]

theorem widthSum_append (ck : String) (cd : List (String × List String))
    (l₁ l₂ : List (String × String)) :
    widthSum ck cd (l₁ ++ l₂) = widthSum ck cd l₁ + widthSum ck cd l₂ := by
  simp [widthSum]

theorem widthSum_ge (ck : String) (cd : List (String × List String))
    (l : List (String × String)) : l.length ≤ widthSum ck cd l := by
  induction l with
  | nil => simp [widthSum]
  | cons p t ih =>
    have h1 := fieldWidth_pos ck cd p
    rw [widthSum_cons, List.length_cons]
    omega

theorem hotRow_length (code k : ℕ) : (hotRow code k).length = encWidth k := by
  unfold hotRow encWidth scatterRow
  split <;> simp

theorem blockOf_length (ck : String) (cd : List (String × List String))
    (p : String × String) (x : Val) :
    (blockOf ck cd p x).length = fieldWidth ck cd p := by
  unfold blockOf fieldWidth
  split <;> simp [hotRow_length]

theorem hot_encode_eq_map (i : List ℕ) (k : ℕ) :
    hot_encode i k = i.map (fun c => hotRow c k) := by
  unfold hot_encode
  by_cases hk : k ≤ 2
  · rw [if_pos hk, List.map_map]
    apply map_congr_mem
    intro c _
    simp [hotRow, hk, Function.comp]
  · rw [if_neg hk]
    apply map_congr_mem
    intro c _
    simp [hotRow, hk]

theorem zip_map_pair {α β γ : Type} (l : List α) (f : α → β) (g : α → γ) :
    (l.map f).zip (l.map g) = l.map (fun x => (f x, g x)) := by
  induction l with
  | nil => rfl
  | cons a t ih => simpa using ih

theorem rowBlocks_length (ck : String) (cd : List (String × List String))
    (flds : List (String × String)) (row : List Val)
    (h : flds.length ≤ row.length) :
    (rowBlocks ck cd flds row).length = widthSum ck cd flds := by
  induction flds generalizing row with
  | nil => simp [rowBlocks, widthSum]
  | cons p t ih =>
    cases row with
    | nil => simp at h
    | cons x xs =>
      rw [rowBlocks, List.length_append, blockOf_length, ih xs (by simpa using h),
        widthSum_cons]

theorem rowBlocks_append (ck : String) (cd : List (String × List String))
    (l₁ l₂ : List (String × String)) (row : List Val)
    (h : l₁.length ≤ row.length) :
    rowBlocks ck cd (l₁ ++ l₂) row =
      rowBlocks ck cd l₁ (row.take l₁.length) ++ rowBlocks ck cd l₂ (row.drop l₁.length) := by
  induction l₁ generalizing row with
  | nil => simp [rowBlocks]
  | cons p t ih =>
    cases row with
    | nil => simp at h
    | cons x xs =>
      simp only [List.cons_append, rowBlocks, List.length_cons, List.take_succ_cons,
        List.drop_succ_cons, List.append_eq]
      rw [ih xs (by simpa using h), List.append_assoc]

theorem drop_take_succ (row : List Val) (j : ℕ) (h : j < row.length) :
    (row.take (j + 1)).drop j = [row.getD j .unset] := by
  induction row generalizing j with
  | nil => simp at h
  | cons x xs ih =>
    cases j with
    | zero => simp
    | succ j => simpa using ih j (by simpa using h)

theorem take_take_le {α : Type} (l : List α) (m n : ℕ) (h : m ≤ n) :
    (l.take n).take m = l.take m := by
  induction l generalizing m n with
  | nil => simp
  | cons x xs ih =>
    cases n with
    | zero =>
      have : m = 0 := by omega
      simp [this]
    | succ n =>
      cases m with
      | zero => simp
      | succ m => simp [ih m n (by omega)]

theorem drop_drop_one {α : Type} (l : List α) (n : ℕ) :
    (l.drop n).drop 1 = l.drop (n + 1) := by
  induction l generalizing n with
  | nil => simp
  | cons x xs ih =>
    cases n with
    | zero => simp
    | succ n => simpa using ih n

/-- The matrix produced by one `_encode_classes` splice step, rewritten one
original row at a time. -/
theorem encode_step_mat (orig : Mat) (g : List Val → List Val) (W kc : ℕ) :
    ((orig.map g).zip (hot_encode ((getCol (orig.map g) W).map toCode) kc)).map
        (fun p => spliceRow W p.1 p.2) =
      orig.map (fun row => spliceRow W (g row)
        (hotRow (toCode ((g row).getD W .unset)) kc)) := by
  rw [hot_encode_eq_map, getCol, List.map_map, List.map_map, zip_map_self]
  simp only [List.map_map]
  apply map_congr_mem
  intro row _
  rfl

/-- One categorical splice step on one row: working at offset position
`widthSum fpre` replaces exactly the original cell of the current field by its
hot-encoded block, moving the processed boundary one field to the right. -/
theorem encode_step_row (ck : String) (cd : List (String × List String))
    (fpre : List (String × String)) (f k : String) (row : List Val)
    (cats : List String) (hk : k = ck) (hcats : catsOf cd f = cats)
    (hlen : fpre.length < row.length) :
    spliceRow (widthSum ck cd fpre)
        (rowBlocks ck cd fpre (row.take fpre.length) ++ row.drop fpre.length)
        (hotRow (toCode ((rowBlocks ck cd fpre (row.take fpre.length) ++
          row.drop fpre.length).getD (widthSum ck cd fpre) .unset)) cats.length) =
      rowBlocks ck cd (fpre ++ [(f, k)]) (row.take (fpre.length + 1)) ++
        row.drop (fpre.length + 1) := by
  have hblen : (rowBlocks ck cd fpre (row.take fpre.length)).length =
      widthSum ck cd fpre := by
    apply rowBlocks_length
    rw [List.length_take]
    omega
  have hget : (rowBlocks ck cd fpre (row.take fpre.length) ++
      row.drop fpre.length).getD (widthSum ck cd fpre) .unset =
      row.getD fpre.length .unset := by
    have h0 := getD_append_right (rowBlocks ck cd fpre (row.take fpre.length))
      (row.drop fpre.length) 0 .unset
    rw [Nat.add_zero] at h0
    rw [← hblen, h0, getD_drop_zero]
  have hone : rowBlocks ck cd [(f, k)] [row.getD fpre.length .unset] =
      hotRow (toCode (row.getD fpre.length .unset)) cats.length := by
    simp [rowBlocks, blockOf, hk, hcats]
  unfold spliceRow
  rw [hget, ← hblen, take_append_len, drop_append_len _ _ 1,
    rowBlocks_append ck cd fpre [(f, k)] (row.take (fpre.length + 1))
      (by rw [List.length_take]; omega),
    take_take_le row fpre.length (fpre.length + 1) (by omega),
    drop_take_succ row fpre.length hlen, hone, drop_drop_one, List.append_assoc]

/-- One non-categorical step on one row: nothing is spliced and the processed
boundary just moves one field to the right. -/
theorem skip_step_row (ck : String) (cd : List (String × List String))
    (fpre : List (String × String)) (f k : String) (row : List Val)
    (hk : ¬ k = ck) (hlen : fpre.length < row.length) :
    rowBlocks ck cd fpre (row.take fpre.length) ++ row.drop fpre.length =
      rowBlocks ck cd (fpre ++ [(f, k)]) (row.take (fpre.length + 1)) ++
        row.drop (fpre.length + 1) := by
  have hone : rowBlocks ck cd [(f, k)] [row.getD fpre.length .unset] =
      [row.getD fpre.length .unset] := by
    simp [rowBlocks, blockOf, hk]
  rw [rowBlocks_append ck cd fpre [(f, k)] (row.take (fpre.length + 1))
      (by rw [List.length_take]; omega),
    take_take_le row fpre.length (fpre.length + 1) (by omega),
    drop_take_succ row fpre.length hlen, hone, List.append_assoc,
    List.singleton_append, ← drop_eq_getD_cons row fpre.length .unset hlen]

/-- The loop of `_encode_classes` is correct: starting from any processed
prefix `fpre` (whose blocks already stand at the left of every row, with the
running `c_offset` equal to their width minus the number of processed
fields), processing the remaining fields produces, for every original row,
the concatenation of all the fields' blocks in declaration order. -/
theorem encodeGo_spec (ck : String) (cd : List (String × List String))
    (full : List (String × String)) (orig : Mat)
    (hnd : (full.map Prod.fst).Nodup)
    (hrect : ∀ row ∈ orig, row.length = full.length) :
    ∀ (frest fpre : List (String × String)), full = fpre ++ frest →
      (∀ p ∈ frest, p.2 = ck → (lookupA cd p.1).isSome) →
      encodeGo ck cd full frest (widthSum ck cd fpre - fpre.length)
        (orig.map (fun row =>
          rowBlocks ck cd fpre (row.take fpre.length) ++ row.drop fpre.length)) =
        .ok (orig.map (fun row => rowBlocks ck cd full row)) := by
  intro frest
  induction frest with
  | nil =>
    intro fpre hsplit hcd
    rw [List.append_nil] at hsplit
    rw [encodeGo]
    congr 1
    apply map_congr_mem
    intro row hr
    have hlen : row.length = fpre.length := by rw [hrect row hr, hsplit]
    rw [← hlen, List.take_length, List.drop_length, List.append_nil, hsplit]
  | cons pk rest ih =>
    intro fpre hsplit hcd
    obtain ⟨f, k⟩ := pk
    have hsplit' : full = (fpre ++ [(f, k)]) ++ rest := by
      rw [hsplit, List.append_assoc]
      rfl
    have hjlt : fpre.length < full.length := by
      rw [hsplit, List.length_append, List.length_cons]
      omega
    have hfnot : f ∉ fpre.map Prod.fst := by
      have hnd' := hnd
      rw [hsplit, List.map_append, List.map_cons, List.nodup_append] at hnd'
      exact fun hm => hnd'.2.2 hm (by simp)
    have hidxf : idxOfKey full f = fpre.length := by
      rw [hsplit]
      exact idxOfKey_append_cons _ _ _ _ hfnot
    have hWge : fpre.length ≤ widthSum ck cd fpre := widthSum_ge ck cd fpre
    by_cases hk : k = ck
    · obtain ⟨cats, hsome⟩ := Option.isSome_iff_exists.mp (hcd (f, k) (by simp) hk)
      have hcats : catsOf cd f = cats := by rw [catsOf, hsome]; rfl
      have hc : idxOfKey full f + (widthSum ck cd fpre - fpre.length) =
          widthSum ck cd fpre := by
        rw [hidxf]
        omega
      have hW1 : widthSum ck cd (fpre ++ [(f, k)]) =
          widthSum ck cd fpre + encWidth cats.length := by
        rw [widthSum_append, widthSum_cons, widthSum_nil, Nat.add_zero]
        congr 1
        unfold fieldWidth
        rw [if_pos hk, hcats]
      have hoff : widthSum ck cd fpre - fpre.length + (encWidth cats.length - 1) =
          widthSum ck cd (fpre ++ [(f, k)]) - (fpre ++ [(f, k)]).length := by
        rw [hW1, List.length_append]
        have he := encWidth_pos cats.length
        simp only [List.length_cons, List.length_nil]
        omega
      rw [encodeGo, if_pos hk]
      split
      next hnone => exact Option.noConfusion (hsome.symm.trans hnone)
      next cats' hsome' =>
        have hceq : cats = cats' := Option.some.inj (hsome.symm.trans hsome')
        subst hceq
        simp only []
        rw [hc, encode_step_mat orig
          (fun row => rowBlocks ck cd fpre (row.take fpre.length) ++ row.drop fpre.length)
          (widthSum ck cd fpre) cats.length]
        have hM : orig.map (fun row => spliceRow (widthSum ck cd fpre)
            (rowBlocks ck cd fpre (row.take fpre.length) ++ row.drop fpre.length)
            (hotRow (toCode ((rowBlocks ck cd fpre (row.take fpre.length) ++
              row.drop fpre.length).getD (widthSum ck cd fpre) .unset)) cats.length)) =
            orig.map (fun row => rowBlocks ck cd (fpre ++ [(f, k)])
              (row.take (fpre ++ [(f, k)]).length) ++
              row.drop (fpre ++ [(f, k)]).length) := by
          apply map_congr_mem
          intro row hr
          have hlt : fpre.length < row.length := by
            rw [hrect row hr]
            exact hjlt
          have hstep := encode_step_row ck cd fpre f k row cats hk hcats hlt
          simpa [List.length_append] using hstep
        rw [hM, hoff]
        exact ih (fpre ++ [(f, k)]) hsplit' (fun p hp hpk => hcd p (by simp [hp]) hpk)
    · rw [encodeGo, if_neg hk]
      have hoffskip : widthSum ck cd fpre - fpre.length =
          widthSum ck cd (fpre ++ [(f, k)]) - (fpre ++ [(f, k)]).length := by
        rw [widthSum_append, widthSum_cons, widthSum_nil, List.length_append]
        have h1 : fieldWidth ck cd (f, k) = 1 := by
          unfold fieldWidth
          rw [if_neg hk]
        rw [h1]
        simp only [List.length_cons, List.length_nil]
        omega
      have hM : orig.map (fun row =>
          rowBlocks ck cd fpre (row.take fpre.length) ++ row.drop fpre.length) =
          orig.map (fun row => rowBlocks ck cd (fpre ++ [(f, k)])
            (row.take (fpre ++ [(f, k)]).length) ++ row.drop (fpre ++ [(f, k)]).length) := by
        apply map_congr_mem
        intro row hr
        have hlt : fpre.length < row.length := by
          rw [hrect row hr]
          exact hjlt
        have hstep := skip_step_row ck cd fpre f k row hk hlt
        simpa [List.length_append] using hstep
      rw [hM, hoffskip]
      exact ih (fpre ++ [(f, k)]) hsplit' (fun p hp hpk => hcd p (by simp [hp]) hpk)

/-- `_encode_classes` over one matrix equals, row by row, the in-order
concatenation of every field's final block: each categorical column is
replaced in place by its hot-encoded block and every later column lands at
its correctly shifted position. -/
theorem encode_classes_spec (ck : String) (cd : List (String × List String))
    (flds : List (String × String)) (M : Mat)
    (hnd : (flds.map Prod.fst).Nodup)
    (hcd : ∀ p ∈ flds, p.2 = ck → (lookupA cd p.1).isSome)
    (hrect : ∀ row ∈ M, row.length = flds.length) :
    encode_classes ck cd flds M = .ok (M.map (fun row => rowBlocks ck cd flds row)) := by
  have hspec := encodeGo_spec ck cd flds M hnd hrect flds [] rfl hcd
  have h0 : M.map (fun row =>
      rowBlocks ck cd ([] : List (String × String)) (row.take (0 : ℕ)) ++
        row.drop (0 : ℕ)) = M := by
    simp [rowBlocks]
  simp only [List.length_nil, widthSum_nil, Nat.sub_zero] at hspec
  rw [h0] at hspec
  rw [encode_classes]
  exact hspec

theorem hot_encode_getD (i : List ℕ) (k r : ℕ) (h : r < i.length) :
    (hot_encode i k).getD r [] = hotRow (i.getD r 0) k := by
  rw [hot_encode_eq_map]
  exact getD_map_lt i _ r 0 [] h

theorem scatterRow_length (code k : ℕ) : (scatterRow code k).length = k := by
  simp [scatterRow]

theorem scatterRow_getD_self (code k : ℕ) (h : code < k) :
    (scatterRow code k).getD code .unset = .num 1 := by
  unfold scatterRow
  exact getD_set_self _ _ _ _ (by simpa using h)

theorem scatterRow_getD_ne (code k j : ℕ) (hj : j < k) (hne : j ≠ code) :
    (scatterRow code k).getD j .unset = .num 0 := by
  unfold scatterRow
  rw [getD_set_ne _ _ _ _ _ (fun hh => hne hh.symm)]
  exact getD_replicate_lt _ _ _ _ hj

theorem hotRow_two (code k : ℕ) (hk : k ≤ 2) (hc : code < k) :
    hotRow code k = [.num (if code = 0 then 1 else 0)] := by
  unfold hotRow
  rw [if_pos hk]
  congr 1
  by_cases h0 : code = 0
  · subst h0
    rw [if_pos rfl]
    unfold scatterRow
    exact getD_set_self _ _ _ _ (by simpa using hc)
  · rw [if_neg h0]
    unfold scatterRow
    rw [getD_set_ne _ _ _ _ _ h0]
    exact getD_replicate_lt _ _ _ _ (by omega)

/-- C9: one-hot expansion of a categorical column with `k` recorded
categories.  For `k > 2`, each row's block has `k` entries with a 1 exactly at
the column indexed by the row's code and 0 elsewhere; for `k ≤ 2`, each row's
block is the single column `[1 if code = 0 else 0]`.  Third conjunct: the
whole `_encode_classes` pass replaces each categorical column in place by its
block, with every later column found at its correctly shifted position via the
single accumulating `c_offset` — the final matrix is, row by row, the in-order
concatenation of all field blocks. -/
theorem c9_hot_encode_blocks :
    (∀ (i : List ℕ) (max_i r : ℕ), 2 < max_i → r < i.length → i.getD r 0 < max_i →
      ((hot_encode i max_i).getD r []).length = max_i ∧
      ((hot_encode i max_i).getD r []).getD (i.getD r 0) .unset = .num 1 ∧
      (∀ j, j < max_i → j ≠ i.getD r 0 →
        ((hot_encode i max_i).getD r []).getD j .unset = .num 0)) ∧
    (∀ (i : List ℕ) (max_i r : ℕ), max_i ≤ 2 → r < i.length → i.getD r 0 < max_i →
      (hot_encode i max_i).getD r [] = [.num (if i.getD r 0 = 0 then 1 else 0)]) ∧
    (∀ (ck : String) (cd : List (String × List String))
        (flds : List (String × String)) (M : Mat),
        (flds.map Prod.fst).Nodup →
        (∀ p ∈ flds, p.2 = ck → (lookupA cd p.1).isSome) →
        (∀ row ∈ M, row.length = flds.length) →
        encode_classes ck cd flds M = .ok (M.map (fun row => rowBlocks ck cd flds row))) := by
  refine ⟨?_, ?_, encode_classes_spec⟩
  · intro i max_i r h2 hr hc
    rw [hot_encode_getD i max_i r hr]
    have hnk : ¬ max_i ≤ 2 := by omega
    unfold hotRow
    rw [if_neg hnk]
    exact ⟨scatterRow_length _ _, scatterRow_getD_self _ _ hc,
      fun j hj hne => scatterRow_getD_ne _ _ _ hj hne⟩
  · intro i max_i r h2 hr hc
    rw [hot_encode_getD i max_i r hr]
    exact hotRow_two _ _ h2 hc

/-- C8: for a valid schema, the column count of the final input matrix is the
sum over input fields of 1 for a continuous field, 1 for a categorical field
with at most 2 recorded categories, and `k` for a categorical field with
`k > 2` recorded categories; symmetrically for the target matrix over target
fields. -/
theorem c8_column_count (cd : List (String × List String))
    (features : List (String × String)) (inM tgM : Mat)
    (hndIn : ((inputFeatures features).map Prod.fst).Nodup)
    (hndTg : ((targetFeatures features).map Prod.fst).Nodup)
    (hvIn : ∀ p ∈ inputFeatures features, p.2 = "continuous" ∨ p.2 = "class")
    (hvTg : ∀ p ∈ targetFeatures features,
      p.2 = "target_continuous" ∨ p.2 = "target_class")
    (hcdIn : ∀ p ∈ inputFeatures features, p.2 = "class" → (lookupA cd p.1).isSome)
    (hcdTg : ∀ p ∈ targetFeatures features, p.2 = "target_class" → (lookupA cd p.1).isSome)
    (hrIn : ∀ row ∈ inM, row.length = (inputFeatures features).length)
    (hrTg : ∀ row ∈ tgM, row.length = (targetFeatures features).length) :
    ∃ M' T' : Mat,
      encode_classes "class" cd (inputFeatures features) inM = .ok M' ∧
      encode_classes "target_class" cd (targetFeatures features) tgM = .ok T' ∧
      (∀ row ∈ M', row.length = ((inputFeatures features).map (fun p =>
        if p.2 = "class"
        then (if (catsOf cd p.1).length ≤ 2 then 1 else (catsOf cd p.1).length)
        else 1)).sum) ∧
      (∀ row ∈ T', row.length = ((targetFeatures features).map (fun p =>
        if p.2 = "target_class"
        then (if (catsOf cd p.1).length ≤ 2 then 1 else (catsOf cd p.1).length)
        else 1)).sum) := by
  refine ⟨_, _, encode_classes_spec "class" cd _ inM hndIn hcdIn hrIn,
    encode_classes_spec "target_class" cd _ tgM hndTg hcdTg hrTg, ?_, ?_⟩
  · intro row hr
    rcases List.mem_map.mp hr with ⟨r0, hr0, hrw⟩
    rw [← hrw, rowBlocks_length _ _ _ _ (le_of_eq (hrIn r0 hr0).symm)]
    unfold widthSum
    congr 1
  · intro row hr
    rcases List.mem_map.mp hr with ⟨r0, hr0, hrw⟩
    rw [← hrw, rowBlocks_length _ _ _ _ (le_of_eq (hrTg r0 hr0).symm)]
    unfold widthSum
    congr 1

/-- C2 (code bug): on the spec's own `delete_row` scenario — input rows
`[[1,2],[NaN,3],[4,5]]` with three aligned target rows — construction does
not delete any row: it aborts with the `AttributeError` of C1, because
`_normalize` reads `self.nan_behaviour` before `__init__` assigns it.  Even
with the attribute in place (second conjunct, the `_normalize` component run
with the policy available), the `delete_row` branch itself raises `NameError`:
source line 154 reads the bare name `input_set`, which is defined nowhere in
the module (and line 155 would assign rows of the input matrix filtered by
the target-NaN mask to `target_set`).  No rows are ever deleted. -/
theorem c2_delete_row_eval :
    initMLS pf0 sq0
      [[("a", "1"), ("b", "2"), ("t", "1")],
       [("a", ""), ("b", "3"), ("t", "1")],
       [("a", "4"), ("b", "5"), ("t", "1")]]
      [("a", "continuous"), ("b", "continuous"), ("t", "target_continuous")]
      [] [] "delete_row" = .error (.attributeError "nan_behaviour") ∧
    normalize sq0 (some "delete_row")
      [("a", "continuous"), ("b", "continuous"), ("t", "target_continuous")]
      [("a", "continuous"), ("b", "continuous")] [("t", "target_continuous")]
      [[Val.num 1, Val.num 2], [Val.nan, Val.num 3], [Val.num 4, Val.num 5]]
      [[Val.num 1], [Val.num 1], [Val.num 1]] [] = .error (.nameError "input_set") := by
  exact ⟨by decide, by decide⟩

/-- C3 (code bug): for a target-continuous field the Normalizer computes the
statistics from the INPUT matrix, not from the field's own target column
(source lines 175–176 read `self.input_set[:, c]` although `c` indexes the
target features, contradicting the adjacent comment "same as above but with
self.target_features and self.target_set").  Concretely: with input column
`[NaN]` and target column `[7]`, the stored entry for the target field `t` is
`(NaN, NaN)` — the statistics of the input column — although the mean of
`t`'s own column is not NaN, and the target column is then scaled with those
NaN statistics. -/
theorem c3_target_stats_eval :
    normalize sq0 (some "ignore")
      [("x", "continuous"), ("t", "target_continuous")]
      [("x", "continuous")] [("t", "target_continuous")]
      [[Val.nan]] [[Val.num 7]] [] =
      .ok ⟨[[Val.nan]], [[Val.nan]],
        [("x", (Val.nan, Val.nan)), ("t", (Val.nan, Val.nan))]⟩ ∧
    nanmean (getCol [[Val.num 7]] 0) ≠ Val.nan := by
  exact ⟨by decide, by decide⟩

/-- C4 counterexample: with the unrecognized kind string `'foo'`,
construction does not fail with a SchemaError — there is no validation at
all.  The classifier keeps the field among the input features, the whole
tabulation pass completes without any error, and construction fails only with
the universal `AttributeError` of C1, exactly as it does for a fully valid
schema. -/
theorem c4_counterexample :
    exOk (constructFill pf0 [("f", "foo")] [] [[("f", "x")]]) = true ∧
    inputFeatures [("f", "foo")] = [("f", "foo")] ∧
    initMLS pf0 sq0 [[("f", "x")]] [("f", "foo")] [] [] "ignore" =
      .error (.attributeError "nan_behaviour") := by
  exact ⟨by decide, by decide, by decide⟩

/-- C5 counterexample: with the unsupported NaN-policy value `'mean'`, the
`_normalize` component does not fail with an UnsupportedError — it produces
exactly the same successful result as with `'ignore'`, silently proceeding as
if `'ignore'` had been selected. -/
theorem c5_counterexample :
    normalize sq0 (some "mean") [("a", "class")] [("a", "class")] []
        [[Val.nan]] [[]] [] =
      normalize sq0 (some "ignore") [("a", "class")] [("a", "class")] []
        [[Val.nan]] [[]] [] ∧
    exOk (normalize sq0 (some "mean") [("a", "class")] [("a", "class")] []
        [[Val.nan]] [[]] []) = true := by
  exact ⟨by decide, by decide⟩

/-- C10 counterexample: the error raised on a non-numeric non-empty
continuous value does not carry the record index or the field name.  Two
tabulation runs whose bad value `'x9'` sits at different record indices (0
versus 1) and in different fields (`'a'` versus `'b'`) raise the very same
error value, `ValueError "x9"` — so the error determines neither the record
index nor the field name, contradicting the claim that it carries both. -/
theorem c10_counterexample :
    constructFill pf0 [("a", "continuous")] [] [[("a", "x9")]] =
      .error (.valueError "x9") ∧
    constructFill pf0 [("b", "continuous")] [] [[("b", "1")], [("b", "x9")]] =
      .error (.valueError "x9") := by
  exact ⟨by decide, by decide⟩

/-- Witness for C1 at a concrete csv and schema. -/
theorem c1_witness :
    exOk (initMLS pf0 sq0 [[("a", "1")]] [("a", "continuous")] [] [] "delete_row") = false ∧
    initMLS pf0 sq0 [[("a", "1")]] [("a", "continuous")] [] [] "delete_row" =
      .error (.attributeError "nan_behaviour") :=
  ⟨(c1_construction_always_fails pf0 sq0 [[("a", "1")]] [("a", "continuous")] [] []
      "delete_row").1,
   (c1_construction_always_fails pf0 sq0 [[("a", "1")]] [("a", "continuous")] [] []
      "delete_row").2 (by decide)⟩

/-- Witness for the amended C4 at the concrete unrecognized kind `'foo'`. -/
theorem c4_witness :
    fillCell pf0 [("f", "foo")] [] 0 [("f", "x")] "f" "foo" ⟨[[Val.unset]], [[]], []⟩ =
      .ok ⟨[[Val.unset]], [[]], []⟩ ∧
    nonIgnored [("f", "foo")] = [("f", "foo")] :=
  c4_amended_no_kind_validation pf0 [("f", "foo")] [] 0 [("f", "x")] "f" "foo"
    ⟨[[Val.unset]], [[]], []⟩ (by decide)

/-- Witness for the amended C5 at the concrete unsupported policy `'mean'`. -/
theorem c5_witness :
    normalize sq0 (some "mean") [("a", "class")] [("a", "class")] []
        [[Val.nan]] [[]] [] =
      normalize sq0 (some "ignore") [("a", "class")] [("a", "class")] []
        [[Val.nan]] [[]] [] ∧
    initMLS pf0 sq0 [[("a", "1")]] [("a", "continuous")] [] [] "mean" =
      initMLS pf0 sq0 [[("a", "1")]] [("a", "continuous")] [] [] "ignore" :=
  ⟨c5_amended_no_policy_validation.1 sq0 "mean" [("a", "class")] [("a", "class")] []
      [[Val.nan]] [[]] [] (by decide),
   c5_amended_no_policy_validation.2 pf0 sq0 [[("a", "1")]] [("a", "continuous")] [] []
      "mean" "ignore"⟩

/-- Witness for C6 at a concrete schema and a supplied statistics entry. -/
theorem c6_witness :
    ∃ ns : NormState,
      normalize sq0 (some "ignore") (nonIgnored [("x", "continuous")])
        (inputFeatures [("x", "continuous")]) (targetFeatures [("x", "continuous")])
        [[Val.nan]] [[]] [("x", (Val.num 0, Val.num 1))] = .ok ns ∧
      lookupA ns.nm "x" = some (Val.num 0, Val.num 1) ∧
      (lookupA (inputFeatures [("x", "continuous")]) "x" = some "continuous" →
        getCol ns.inM (idxOfKey (inputFeatures [("x", "continuous")]) "x") =
          (getCol [[Val.nan]] (idxOfKey (inputFeatures [("x", "continuous")]) "x")).map
            (vTrans (Val.num 0) (Val.num 1))) ∧
      (lookupA (targetFeatures [("x", "continuous")]) "x" = some "target_continuous" →
        getCol ns.tgM (idxOfKey (targetFeatures [("x", "continuous")]) "x") =
          (getCol [[]] (idxOfKey (targetFeatures [("x", "continuous")]) "x")).map
            (vTrans (Val.num 0) (Val.num 1))) :=
  c6_supplied_stats_verbatim sq0 [("x", "continuous")] [[Val.nan]] [[]]
    [("x", (Val.num 0, Val.num 1))] "x" (Val.num 0) (Val.num 1)
    (by decide) (by decide) (by decide) (by decide)

/-- Witness for C7 at concrete dictionaries and records. -/
theorem c7_witness :
    (fillCell pf0 [("a", "class")] [] 0 [("a", "x")] "a" "class"
        ⟨[[Val.unset]], [[]], []⟩ =
      .ok { inM := matSet [[Val.unset]] 0 (idxOfKey [("a", "class")] "a") (.num 0),
            tgM := [[]], cd := [] ++ [("a", ["x"])] }) ∧
    (fillCell pf0 [("a", "class")] [] 0 [("a", "x")] "a" "class"
        ⟨[[Val.unset]], [[]], [("a", ["w", "x"])]⟩ =
      .ok { inM := matSet [[Val.unset]] 0 (idxOfKey [("a", "class")] "a")
              (.num (findIdxStr ["w", "x"] "x" : ℚ)),
            tgM := [[]], cd := [("a", ["w", "x"])] }) ∧
    (∃ ts : TabState,
      constructFill pf0 [("a", "class")] [("a", ["w"])] [[("a", "x")]] = .ok ts ∧
      cdExtends [("a", ["w"])] ts.cd) ∧
    findIdxStr (["w"] ++ ["x"]) "w" = findIdxStr ["w"] "w" := by
  refine ⟨?_, ?_, ?_, ?_⟩
  · exact c7_dictionary_stable.1 pf0 [("a", "class")] [] 0 [("a", "x")] "a" "x"
      ⟨[[Val.unset]], [[]], []⟩ (by decide) (by decide)
  · exact c7_dictionary_stable.2.1 pf0 [("a", "class")] [] 0 [("a", "x")] "a" "x"
      ⟨[[Val.unset]], [[]], [("a", ["w", "x"])]⟩ ["w", "x"]
      (by decide) (by decide) (by decide)
  · exact ⟨_, rfl,
      c7_dictionary_stable.2.2.1 pf0 [("a", "class")] [("a", ["w"])] [[("a", "x")]] _ rfl⟩
  · exact c7_dictionary_stable.2.2.2 ["w"] ["x"] "w" (by decide)

/-- Witness for C8 at a concrete schema with a 3-category field, a continuous
field, a 2-category field and a 1-category target field. -/
theorem c8_witness :
    ∃ M' T' : Mat,
      encode_classes "class" [("p", ["a", "b", "c"]), ("q", ["u", "v"]), ("s", ["y"])]
        (inputFeatures [("p", "class"), ("x", "continuous"), ("q", "class"),
          ("s", "target_class")]) [[Val.num 2, Val.num 7, Val.num 1]] = .ok M' ∧
      encode_classes "target_class" [("p", ["a", "b", "c"]), ("q", ["u", "v"]), ("s", ["y"])]
        (targetFeatures [("p", "class"), ("x", "continuous"), ("q", "class"),
          ("s", "target_class")]) [[Val.num 0]] = .ok T' ∧
      (∀ row ∈ M', row.length = ((inputFeatures [("p", "class"), ("x", "continuous"),
          ("q", "class"), ("s", "target_class")]).map (fun p =>
        if p.2 = "class"
        then (if (catsOf [("p", ["a", "b", "c"]), ("q", ["u", "v"]), ("s", ["y"])] p.1).length ≤ 2
              then 1
              else (catsOf [("p", ["a", "b", "c"]), ("q", ["u", "v"]), ("s", ["y"])] p.1).length)
        else 1)).sum) ∧
      (∀ row ∈ T', row.length = ((targetFeatures [("p", "class"), ("x", "continuous"),
          ("q", "class"), ("s", "target_class")]).map (fun p =>
        if p.2 = "target_class"
        then (if (catsOf [("p", ["a", "b", "c"]), ("q", ["u", "v"]), ("s", ["y"])] p.1).length ≤ 2
              then 1
              else (catsOf [("p", ["a", "b", "c"]), ("q", ["u", "v"]), ("s", ["y"])] p.1).length)
        else 1)).sum) :=
  c8_column_count [("p", ["a", "b", "c"]), ("q", ["u", "v"]), ("s", ["y"])]
    [("p", "class"), ("x", "continuous"), ("q", "class"), ("s", "target_class")]
    [[Val.num 2, Val.num 7, Val.num 1]] [[Val.num 0]]
    (by decide) (by decide) (by decide) (by decide) (by decide) (by decide)
    (by decide) (by decide)

/-- Witness for C9 at concrete codes and a concrete categorical matrix. -/
theorem c9_witness :
    ((hot_encode [2, 0] 3).getD 0 []).length = 3 ∧
    ((hot_encode [2, 0] 3).getD 0 []).getD ([2, 0].getD 0 0) .unset = .num 1 ∧
    (hot_encode [0, 1] 2).getD 1 [] = [.num (if [0, 1].getD 1 0 = 0 then 1 else 0)] ∧
    encode_classes "class" [("p", ["a", "b", "c"])] [("p", "class")] [[Val.num 1]] =
      .ok ([[Val.num 1]].map
        (fun row => rowBlocks "class" [("p", ["a", "b", "c"])] [("p", "class")] row)) := by
  have h1 := c9_hot_encode_blocks.1 [2, 0] 3 0 (by decide) (by decide) (by decide)
  exact ⟨h1.1, h1.2.1,
    c9_hot_encode_blocks.2.1 [0, 1] 2 1 (by decide) (by decide) (by decide),
    c9_hot_encode_blocks.2.2 "class" [("p", ["a", "b", "c"])] [("p", "class")]
      [[Val.num 1]] (by decide) (by decide) (by decide)⟩

/-- Witness for the amended C10 at a concrete empty value, a concrete
non-numeric value, and the abort of the record loop. -/
theorem c10_witness :
    (fillCell pf0 [("a", "continuous")] [] 0 [("a", "")] "a" "continuous"
        ⟨[[Val.unset]], [[]], []⟩ =
      .ok { inM := matSet [[Val.unset]] 0 (idxOfKey [("a", "continuous")] "a") .nan,
            tgM := [[]], cd := [] }) ∧
    (fillCell pf0 [("a", "continuous")] [] 0 [("a", "x9")] "a" "continuous"
        ⟨[[Val.unset]], [[]], []⟩ = .error (.valueError "x9")) ∧
    (fillFeats pf0 [("a", "continuous")] [] 0 [("a", "x9")] [("a", "continuous")]
        ⟨[[Val.unset]], [[]], []⟩ = .error (.valueError "x9")) := by
  refine ⟨?_, ?_, ?_⟩
  · exact ((c10_amended_parse pf0 [("a", "continuous")] [] 0 [("a", "")] "a" ""
      ⟨[[Val.unset]], [[]], []⟩ (by decide)).1 rfl).1
  · exact ((c10_amended_parse pf0 [("a", "continuous")] [] 0 [("a", "x9")] "a" "x9"
      ⟨[[Val.unset]], [[]], []⟩ (by decide)).2.2.1 (by decide) (by decide)).1
  · exact (c10_amended_parse pf0 [("a", "continuous")] [] 0 [("a", "x9")] "a" "x9"
      ⟨[[Val.unset]], [[]], []⟩ (by decide)).2.2.2 (.valueError "x9") "continuous" []
      (((c10_amended_parse pf0 [("a", "continuous")] [] 0 [("a", "x9")] "a" "x9"
        ⟨[[Val.unset]], [[]], []⟩ (by decide)).2.2.1 (by decide) (by decide)).1)

end MLS
